import Mathlib

/-!
Verification of the XNL_Dashboard X/Twitter scraper (`src/scraper/scraper.ts`,
which holds three script revisions, and the earlier revision in
`src/unnamed/part_003`).  The collection engine, the per-item extractors and
the engagement-counter parsers are embedded as executable Lean functions and
the spec's testable properties are settled against them.
-/

namespace XNL

/-! ## JavaScript string primitives

Strings are modelled as `List Char`.  The primitives below embed exactly the
string operations the scraper uses: substring search (for `String.match` and
`String.split`), `takeWhile`-style truncation (for `split("?")[0]`), and the
digit machinery of `parseInt`. -/

/-- `leadsWith pat s` is true when `pat` is an initial segment of `s`
(the anchored form of JS substring matching). -/
def leadsWith : List Char → List Char → Bool
  | [], _ => true
  | _ :: _, [] => false
  | p :: ps, c :: cs => p == c && leadsWith ps cs

/-- Index of the first occurrence of `pat` in `s`, scanning left to right —
the search JS `String.match` and `String.split` perform. -/
def findFrom (pat : List Char) : List Char → Option Nat
  | [] => if leadsWith pat [] then some 0 else none
  | c :: cs =>
    if leadsWith pat (c :: cs) then some 0
    else (findFrom pat cs).map (· + 1)

/-- `splitSeg1 pat s` embeds `s.split(pat)[1]`: the segment strictly between
the first and second occurrence of `pat` (or the tail after the first
occurrence when there is no second one); `none` when `pat` does not occur,
matching JS's `undefined`. -/
def splitSeg1 (pat s : List Char) : Option (List Char) :=
  match findFrom pat s with
  | none => none
  | some i =>
    let rest := s.drop (i + pat.length)
    match findFrom pat rest with
    | none => some rest
    | some j => some (rest.take j)

/-- A character counted by the regex class `[\d,]`. -/
def isRunChar (c : Char) : Bool := c.isDigit || c == ','

/-- `firstRun s` embeds `s.match(/[\d,]+/)`: the first maximal run of
digit-or-comma characters, `none` when the string has none. -/
def firstRun (s : List Char) : Option (List Char) :=
  let t := s.dropWhile (fun c => !isRunChar c)
  if t.isEmpty then none else some (t.takeWhile isRunChar)

/-- Numeric value of a digit string (most significant first). -/
def digitsVal (l : List Char) : Nat :=
  l.foldl (fun a c => 10 * a + (c.toNat - 48)) 0

/-- `parseInt(s, 10)` restricted to the strings the scraper feeds it (runs of
digits and commas): the value of the longest digit-only initial segment, and
`none` — JS `NaN` — when that segment is empty. -/
def jsParseInt (l : List Char) : Option Nat :=
  let p := l.takeWhile Char.isDigit
  if p.isEmpty then none else some (digitsVal p)

/-- `run.replace(/,/g, "")` — every comma removed. -/
def stripAllCommas (l : List Char) : List Char :=
  l.filter (fun c => !(c == ','))

/-- Remove the first occurrence of a character — JS
`String.replace(c, "")` with a (one-character) string pattern, which
replaces a single occurrence. -/
def removeFirst (t : Char) : List Char → List Char
  | [] => []
  | c :: cs => if c == t then cs else c :: removeFirst t cs

/-! ## Engagement-counter parsers

`parseCount` embeds `parseCount` of the third revision of
`src/scraper/scraper.ts` (lines 540–543); `getCount` embeds the label-parsing
core of `getCount` in `src/unnamed/part_003` (lines 104–110).  A `none`
result models JS `NaN`. -/

/-- `parseCount(label)`: first `[\d,]+` run, all commas stripped, `parseInt`;
`0` when there is no run. -/
def parseCount (s : String) : Option Nat :=
  match firstRun s.data with
  | none => some 0
  | some run => jsParseInt (stripAllCommas run)

/-- The `getCount` label parsing of `src/unnamed/part_003`: first `[\d,]+`
run, only the **first** comma stripped (`raw.replace(",", "")` with a string
pattern), `parseInt`; `0` when there is no run. -/
def getCount (s : String) : Option Nat :=
  match firstRun s.data with
  | none => some 0
  | some run => jsParseInt (removeFirst ',' run)

/-- The counter value the spec describes (§4.4, §8): the digits of the first
numeric run with every grouping separator stripped, `0` when the label has no
run.  Stated from the spec's words, to be compared with the code's parsers. -/
def specCount (s : String) : Nat :=
  match firstRun s.data with
  | none => 0
  | some run => digitsVal (run.filter Char.isDigit)

/-! ## Tweet-id extraction from the permalink href

Revision 1 derives the id with `href.match(/status\/(\d+)/)` and takes the
capture; revisions 2/3 (and `part_003`) use
`href.split("/status/")[1].split("?")[0]`. -/

/-- Does the list start with a digit?  (the `\d` the regex requires right
after `status/`). -/
def digitLeads : List Char → Bool
  | [] => false
  | c :: _ => c.isDigit

/-- The literal part of the regex `/status\/(\d+)/`. -/
def statusPat : List Char := "status/".data

/-- `href.match(/status\/(\d+)/)`: the capture group of the match at the
least position where `status/` is followed by at least one digit; the
capture is the maximal digit run there.  `none` models a failed match. -/
def regexStatusId : List Char → Option (List Char)
  | [] => none
  | c :: cs =>
    if leadsWith statusPat (c :: cs) && digitLeads ((c :: cs).drop 7) then
      some (((c :: cs).drop 7).takeWhile Char.isDigit)
    else regexStatusId cs

/-- `href.split("/status/")[1]?.split("?")[0]` — the split-based id used by
revisions 2/3 and `part_003`.  `none` models `undefined`. -/
def splitStatusId (href : List Char) : Option (List Char) :=
  (splitSeg1 ("/status/".data) href).map (fun seg => seg.takeWhile (fun c => !(c == '?')))

/-- JS `String.split(sep)` for a one-character separator. -/
def splitChar (sep : Char) : List Char → List (List Char)
  | [] => [[]]
  | c :: cs =>
    match splitChar sep cs with
    | [] => [[]]
    | seg :: rest => if c == sep then [] :: seg :: rest else (c :: seg) :: rest

/-- `text.replace(/\n/g, " ")` — revision 1's line-break collapsing. -/
def newlinesToSpaces (s : String) : String :=
  ⟨s.data.map (fun c => if c == '\n' then ' ' else c)⟩

/-- JS `String.trim`: whitespace removed from both ends. -/
def trimJS (s : String) : String :=
  ⟨((s.data.dropWhile Char.isWhitespace).reverse.dropWhile Char.isWhitespace).reverse⟩

/-! ## Data model

One rendered `article[data-testid="tweet"]` element, reduced to the
attributes the scraper reads from it.  A `none` field models a missing
sub-element or a `null` attribute.  (Wall-clock fields — `scraped_at`,
the `published_at` fallback `new Date()` — are real-time effects and are
not part of the embedding.) -/

structure Elem where
  text : Option String := none
  nameText : Option String := none
  href : Option String := none
  likeLabel : Option String := none
  rtLabel : Option String := none
  repLabel : Option String := none
  deriving DecidableEq, Repr

/-- The record built by revision 1's `collect` (scraper.ts 136–145). -/
structure TweetV1 where
  tweet_id : String
  text : String
  author_handle : Option String
  topic : String
  processed : Bool
  deriving DecidableEq, Repr

/-- The record built by revision 2's `collect` (scraper.ts 408–414). -/
structure TweetV2 where
  tweet_id : String
  topic : String
  text : String
  processed : Bool
  deriving DecidableEq, Repr

/-- The record built by revision 3's `parseTweets` (scraper.ts 578–591).
`Option Nat` engagement counters: `none` models JS `NaN`. -/
structure TweetV3 where
  tweet_id : String
  topic : String
  text : String
  author : String
  author_handle : String
  likes : Option Nat
  retweets : Option Nat
  replies : Option Nat
  tweet_url : String
  processed : Bool
  deriving DecidableEq, Repr

/-! ## Per-item extraction, one function per revision -/

/-- Revision 1's per-article extraction (scraper.ts 118–146): text element
required, link and href required, regex id required; line breaks collapsed;
`author_handle` is `href.split("/")[1]`. -/
def extractV1 (topic : String) (e : Elem) : Option TweetV1 :=
  match e.text, e.href with
  | some text, some href =>
    match regexStatusId href.data with
    | none => none
    | some cap =>
      some { tweet_id := ⟨cap⟩
             text := newlinesToSpaces text
             author_handle := ((splitChar '/' href.data).get? 1).map (⟨·⟩)
             topic := topic
             processed := false }
  | _, _ => none

/-- Revision 2's per-element extraction (scraper.ts 397–414, without the
`seen` check, which lives in the collector): empty text skipped, id from the
split (a missing `/status/` occurrence throws in JS and the item is skipped
by the per-item `catch`), falsy id skipped. -/
def extractV2 (topic : String) (e : Elem) : Option TweetV2 :=
  let text := e.text.getD ""
  if text = "" then none
  else
    let href := e.href.getD ""
    if href = "" then none
    else
      match splitStatusId href.data with
      | none => none
      | some seg =>
        let tid : String := ⟨seg⟩
        if tid = "" then none
        else some { tweet_id := tid, topic := topic, text := trimJS text, processed := false }

/-- Revision 3's per-element extraction (scraper.ts 550–591): trimmed text
required, author/handle from the `User-Name` text split at line breaks, id
from the split (optional-chained, so a missing occurrence yields `""` and the
item is skipped), three engagement counters through `parseCount`. -/
def extractV3 (topic : String) (e : Elem) : Option TweetV3 :=
  let text := trimJS (e.text.getD "")
  if text = "" then none
  else
    let parts := splitChar '\n' (e.nameText.getD "").data
    let author := ((parts.get? 0).map (fun l => trimJS ⟨l⟩)).getD ""
    let handle := trimJS ⟨removeFirst '@' ((parts.get? 1).getD [])⟩
    let href := e.href.getD ""
    let tid : String := ⟨((splitStatusId href.data).getD [])⟩
    if tid = "" then none
    else
      some { tweet_id := tid
             topic := topic
             text := text
             author := author
             author_handle := handle
             likes := parseCount (e.likeLabel.getD "")
             retweets := parseCount (e.rtLabel.getD "")
             replies := parseCount (e.repLabel.getD "")
             tweet_url := if href = "" then "" else "https://x.com" ++ href
             processed := false }

/-- Revision 3's `parseTweets` (scraper.ts 546–597): every rendered element
extracted in order, failing items skipped. -/
def parseTweets (topic : String) (els : List Elem) : List TweetV3 :=
  els.filterMap (extractV3 topic)

/-! ## The JS `Map` of the collectors

Revisions 2/3 and `part_003` key their `seen` map by `tweet_id`.  A JS `Map`
preserves insertion order; `set` on a present key replaces the value in
place, on an absent key appends; `size` counts the keys.  Modelled as an
association list. -/

/-- `m.has k`. -/
def mapHas {τ : Type} (m : List (String × τ)) (k : String) : Bool :=
  m.any (fun p => p.1 == k)

/-- `m.set k v`. -/
def mapSet {τ : Type} (m : List (String × τ)) (k : String) (v : τ) : List (String × τ) :=
  if mapHas m k then m.map (fun p => if p.1 == k then (k, v) else p)
  else m ++ [(k, v)]

/-- `m.get k`. -/
def mapGet {τ : Type} : List (String × τ) → String → Option τ
  | [], _ => none
  | p :: m, k => if p.1 == k then some p.2 else mapGet m k

/-- `Array.from(m.values())`. -/
def mapValues {τ : Type} (m : List (String × τ)) : List τ :=
  m.map Prod.snd

/-! ## The collector loops

The three loops share one shape: a guarded round that merges this round's
extractions into `seen` and updates the staleness counter.  The page's
successive rendered states are a stream `views : Nat → List Elem` (round
`i` of the loop sees `views i`; for revision 1, which also reads
`document.body.scrollHeight`, the stream also carries that height). -/

/-- A bounded while-loop: run `f` while `g` holds, at most `fuel` times. -/
def iterateWhile {σ : Type} (g : σ → Bool) (f : σ → σ) : Nat → σ → σ
  | 0, s => s
  | n + 1, s => if g s then iterateWhile g f n (f s) else s

/-- The per-target state of the revision-2/3 loops: the `seen` map, the
stale-round counter, and the number of rounds executed so far. -/
structure CState (τ : Type) where
  seen : List (String × τ)
  stale : Nat
  round : Nat
  deriving DecidableEq, Repr

/-- The loop guard `seen.size < target && stale < maxStale`. -/
def guardC {τ : Type} (target maxStale : Nat) (s : CState τ) : Bool :=
  s.seen.length < target && s.stale < maxStale

/-- One `Extracting → Revealing → Settling` round around a given merge
function: merge the round's rendering into `seen`, then compare `seen.size`
with its value before the round — unchanged increments `stale`, growth
resets it to 0. -/
def stepC {τ : Type} (round : List (String × τ) → Nat → List (String × τ))
    (s : CState τ) : CState τ :=
  let seen' := round s.seen s.round
  { seen := seen'
    stale := if seen'.length = s.seen.length then s.stale + 1 else 0
    round := s.round + 1 }

/-- The whole guarded loop from the empty state. -/
def runCollector {τ : Type} (round : List (String × τ) → Nat → List (String × τ))
    (target maxStale fuel : Nat) : CState τ :=
  iterateWhile (guardC target maxStale) (stepC round) fuel ⟨[], 0, 0⟩

/-- Revision 2's merge (scraper.ts 396–416): items extracted in order,
an id already in `seen` (including one inserted earlier in the same round)
is skipped — the first extraction wins. -/
def roundV2 (topic : String) (views : Nat → List Elem)
    (seen : List (String × TweetV2)) (i : Nat) : List (String × TweetV2) :=
  (views i).foldl
    (fun m e =>
      match extractV2 topic e with
      | none => m
      | some t => if mapHas m t.tweet_id then m else m ++ [(t.tweet_id, t)])
    seen

/-- Revision 3's merge (scraper.ts 606–607):
`batch.forEach(t => seen.set(t.tweet_id, t))` — the last extraction wins. -/
def roundV3 (topic : String) (views : Nat → List Elem)
    (seen : List (String × TweetV3)) (i : Nat) : List (String × TweetV3) :=
  (parseTweets topic (views i)).foldl (fun m t => mapSet m t.tweet_id t) seen

/-- Revision 2's `collect(page, topic, target)` (scraper.ts 388–422):
the loop with `maxStale = 4`, output `Array.from(seen.values()).slice(0, target)`. -/
def collectV2 (topic : String) (target : Nat) (views : Nat → List Elem)
    (fuel : Nat) : List TweetV2 :=
  (mapValues (runCollector (roundV2 topic views) target 4 fuel).seen).take target

/-- Revision 3's `scrollAndCollect(page, topic, target)` (scraper.ts
600–614): the loop with `maxStale = 4`, output
`Array.from(seen.values()).slice(0, target)`.  (`part_003`'s
`scrollAndCollect` is the same loop with `maxStale = 5`.) -/
def scrollAndCollect (topic : String) (target : Nat) (views : Nat → List Elem)
    (fuel : Nat) : List TweetV3 :=
  (mapValues (runCollector (roundV3 topic views) target 4 fuel).seen).take target

/-- The outcome the spec's state machine distinguishes: `Done` when the
target count was reached, `PartialDone` when the loop stopped on staleness. -/
inductive Outcome where
  | done
  | partialDone
  deriving DecidableEq, Repr

/-- Classify a halted collector state. -/
def outcomeOf {τ : Type} (target : Nat) (s : CState τ) : Outcome :=
  if target ≤ s.seen.length then .done else .partialDone

/-! ### Revision 1's `collect` (scraper.ts 109–175)

Per-round state: the output array, the `seenIds` set, the previously
observed `scrollHeight` and the `retries` counter.  The guard is
`tweets.length < limit && retries < 5`; the inner loop stops pushing at
`limit`; **staleness is judged from `scrollHeight`, not from the record
count**. -/

structure StateV1 where
  tweets : List TweetV1
  seenIds : List String
  prevHeight : Nat
  retries : Nat
  round : Nat
  deriving DecidableEq, Repr

/-- Revision 1's per-article body: stop at `limit`, skip failed extractions,
skip ids already seen, otherwise push. -/
def pushV1 (limit : Nat) (topic : String) (st : List TweetV1 × List String)
    (e : Elem) : List TweetV1 × List String :=
  if limit ≤ st.1.length then st
  else
    match extractV1 topic e with
    | none => st
    | some t =>
      if st.2.contains t.tweet_id then st
      else (st.1 ++ [t], st.2 ++ [t.tweet_id])

/-- One round of revision 1's loop over a rendering `(articles, height)`:
extract, then compare `scrollHeight` with the previous round's —
equal increments `retries`, different resets it to 0. -/
def stepV1 (topic : String) (limit : Nat) (views : Nat → List Elem × Nat)
    (s : StateV1) : StateV1 :=
  let (els, h) := views s.round
  let st := els.foldl (pushV1 limit topic) (s.tweets, s.seenIds)
  { tweets := st.1
    seenIds := st.2
    prevHeight := h
    retries := if h = s.prevHeight then s.retries + 1 else 0
    round := s.round + 1 }

/-- Revision 1's loop guard. -/
def guardV1 (limit : Nat) (s : StateV1) : Bool :=
  s.tweets.length < limit && s.retries < 5

/-- Revision 1's `collect(page, topic, limit)` as a state trace
(`prevHeight` starts at 0). -/
def runV1 (topic : String) (limit : Nat) (views : Nat → List Elem × Nat)
    (fuel : Nat) : StateV1 :=
  iterateWhile (guardV1 limit) (stepV1 topic limit views) fuel ⟨[], [], 0, 0, 0⟩

/-! ## The run over all targets

Revision 2's `main` (scraper.ts 435–464, same shape in revision 1 and
`part_003`): targets processed strictly in order; per target the
navigation/selector phase either throws — the target is skipped — or yields
the stream of rendered views the collector consumes; results are
concatenated into one batch, uploaded once at the end.  `nav t = none`
models a thrown navigation or selector wait. -/

structure Target where
  topic : String
  query : String
  deriving DecidableEq, Repr

/-- The accumulated batch of a run of revision 2's `main`. -/
def runMain (cnt fuel : Nat) (nav : Target → Option (Nat → List Elem)) :
    List Target → List TweetV2
  | [] => []
  | t :: ts =>
    (match nav t with
     | none => []
     | some views => collectV2 t.topic cnt views fuel) ++ runMain cnt fuel nav ts

/-! ## Predicates used in the statements -/

/-- The first digit-or-comma run of the label, when there is one, contains a
digit (so JS `parseInt` on it cannot be handed the empty string). -/
def runHasDigit (s : String) : Bool :=
  match firstRun s.data with
  | none => true
  | some run => run.any Char.isDigit

/-- Number of grouping separators inside the first digit-or-comma run. -/
def runCommaCount (s : String) : Nat :=
  match firstRun s.data with
  | none => 0
  | some run => run.count ','

/-- The well-formedness invariant of a collector `seen` map: keys are
distinct (a JS `Map` cannot hold a key twice) and every stored record's
`tweet_id` is its key. -/
def GoodMap {τ : Type} (key : τ → String) (m : List (String × τ)) : Prop :=
  (m.map Prod.fst).Nodup ∧ ∀ p ∈ m, key p.2 = p.1

/-! ## Concrete fixtures for the scenario claims -/

/-- A rendered tweet element with the given id: nonempty text and a
canonical permalink. -/
def mkEl (id : String) : Elem :=
  { text := some ("t" ++ id), href := some ("/u/status/" ++ id) }

/-- The spec's §8 scenario stream: 5 unique items over the first 3 rounds,
then the same 5 items forever. -/
def vsC5 : Nat → List Elem
  | 0 => [mkEl "1", mkEl "2"]
  | 1 => [mkEl "1", mkEl "2", mkEl "3", mkEl "4"]
  | _ => [mkEl "1", mkEl "2", mkEl "3", mkEl "4", mkEl "5"]

/-- Navigation behaviour in which every target succeeds and renders the same
single tweet (id 7) — the same post matches two topics' queries. -/
def navDup : Target → Option (Nat → List Elem) :=
  fun _ => some (fun _ => [mkEl "7"])

/-- A stream whose every round renders the same id twice: first with text
`"old"`, then with text `"new"`. -/
def vsDupText : Nat → List Elem :=
  fun _ => [{ text := some "old", href := some "/u/status/1" },
            { text := some "new", href := some "/u/status/1" }]

/-- A revision-1 stream rendering no articles while `scrollHeight` keeps
growing (page furniture loads, content does not). -/
def vsHeightGrows : Nat → List Elem × Nat :=
  fun i => ([], 100 + i)

/-- A revision-1 stream rendering one new article in round 0 while
`scrollHeight` stays at its initial value 0. -/
def vsHeightStalls : Nat → List Elem × Nat :=
  fun _ => ([mkEl "9"], 0)

/-- Navigation behaviour for the failure-isolation scenario: the target
labelled `Bad` throws on navigation, every other target renders one
tweet. -/
def navBad : Target → Option (Nat → List Elem) :=
  fun t => if t.topic = "Bad" then none else some (fun _ => [mkEl "3"])

/-- The record revision 3's extractor produces from `mkEl "7"` under topic
`T`. -/
def tw7 : TweetV3 :=
  { tweet_id := "7", topic := "T", text := "t7", author := "", author_handle := ""
    likes := some 0, retweets := some 0, replies := some 0
    tweet_url := "https://x.com/u/status/7", processed := false }

/-- The record revision 1's extractor produces from `mkEl "7"` under topic
`T`. -/
def tw1 : TweetV1 :=
  { tweet_id := "7", text := "t7", author_handle := some "u", topic := "T"
    processed := false }

/-! ## Sanity checks of the embedding on concrete inputs -/

example : parseCount "1,234" = some 1234 := by decide
example : parseCount "1,234 likes" = some 1234 := by decide
example : parseCount "" = some 0 := by decide
example : parseCount "," = none := by decide
example : getCount "1,234" = some 1234 := by decide
example : getCount "1,234,567 weergaven" = some 1234 := by decide
example : specCount "1,234,567 weergaven" = 1234567 := by decide

example :
    extractV3 "T" { text := some " hi ", href := some "/alice/status/99?ref=x",
                    likeLabel := some "1,234 likes" } =
    some { tweet_id := "99", topic := "T", text := "hi", author := "",
           author_handle := "", likes := some 1234, retweets := some 0,
           replies := some 0, tweet_url := "https://x.com/alice/status/99?ref=x",
           processed := false } := by decide

example :
    extractV1 "T" { text := some "a\nb", href := some "/alice/status/99?ref=x" } =
    some { tweet_id := "99", text := "a b", author_handle := some "alice",
           topic := "T", processed := false } := by decide

/-! ## Lemmas about the bounded while-loop -/

theorem foldl_preserve {σ α : Type} (P : σ → Prop) {f : σ → α → σ}
    (h : ∀ s a, P s → P (f s a)) : ∀ (l : List α) (s : σ), P s → P (l.foldl f s)
  | [], _, hs => hs
  | a :: l, s, hs => foldl_preserve P h l (f s a) (h s a hs)

theorem iterateWhile_preserve {σ : Type} (P : σ → Prop) (g : σ → Bool) (f : σ → σ)
    (h : ∀ s, P s → P (f s)) : ∀ (n : Nat) (s : σ), P s → P (iterateWhile g f n s)
  | 0, _, hs => hs
  | n + 1, s, hs => by
    unfold iterateWhile
    split
    · exact iterateWhile_preserve P g f h n (f s) (h s hs)
    · exact hs

theorem iterateWhile_stop {σ : Type} (g : σ → Bool) (f : σ → σ) (n : Nat) (s : σ)
    (h : g s = false) : iterateWhile g f n s = s := by
  cases n <;> simp [iterateWhile, h]

theorem iterateWhile_halt {σ : Type} (g : σ → Bool) (f : σ → σ) (μ : σ → Nat)
    (hdec : ∀ s, g s = true → μ (f s) < μ s) :
    ∀ (n : Nat) (s : σ), μ s ≤ n → g (iterateWhile g f n s) = false := by
  intro n
  induction n with
  | zero =>
    intro s h
    cases hg : g s with
    | false => exact hg
    | true => exact absurd (hdec s hg) (by omega)
  | succ n ih =>
    intro s h
    cases hg : g s with
    | false => rw [iterateWhile_stop g f (n + 1) s hg]; exact hg
    | true =>
      have := hdec s hg
      simp only [iterateWhile, hg, if_true]
      exact ih (f s) (by omega)

theorem iterateWhile_round_le {σ : Type} (g : σ → Bool) (f : σ → σ) (rnd : σ → Nat)
    (hstep : ∀ s, rnd (f s) = rnd s + 1) :
    ∀ (k n : Nat) (s : σ), g (f^[k] s) = false → rnd (iterateWhile g f n s) ≤ rnd s + k := by
  intro k
  induction k with
  | zero =>
    intro n s h
    rw [Function.iterate_zero_apply] at h
    rw [iterateWhile_stop g f n s h]
    omega
  | succ k ih =>
    intro n s h
    cases n with
    | zero =>
      show rnd s ≤ rnd s + (k + 1)
      omega
    | succ n =>
      cases hg : g s with
      | false =>
        rw [iterateWhile_stop g f (n + 1) s hg]
        omega
      | true =>
        simp only [iterateWhile, hg, if_true]
        have h' : g (f^[k] (f s)) = false := by
          rwa [Function.iterate_succ_apply] at h
        have := ih n (f s) h'
        rw [hstep] at this
        omega

/-! ## Lemmas about the `Map` embedding -/

theorem mapHas_iff {τ : Type} (m : List (String × τ)) (k : String) :
    mapHas m k = true ↔ k ∈ m.map Prod.fst := by
  simp [mapHas, List.any_eq_true]

theorem mapGet_isSome_iff {τ : Type} (m : List (String × τ)) (k : String) :
    (mapGet m k).isSome = mapHas m k := by
  induction m with
  | nil => simp [mapGet, mapHas]
  | cons p m ih =>
    by_cases h : p.1 == k <;> simp [mapGet, mapHas, h, ih]

theorem mapGet_eq_none_of_not_has {τ : Type} (m : List (String × τ)) (k : String)
    (h : mapHas m k = false) : mapGet m k = none := by
  have := mapGet_isSome_iff m k
  rw [h] at this
  exact Option.not_isSome_iff_eq_none.mp (by simp [this])

theorem mapGet_append {τ : Type} (m₁ m₂ : List (String × τ)) (k : String) :
    mapGet (m₁ ++ m₂) k = (mapGet m₁ k <|> mapGet m₂ k) := by
  induction m₁ with
  | nil => simp [mapGet]
  | cons p m ih =>
    by_cases h : p.1 == k <;> simp [mapGet, h, ih]

theorem mapGet_map_update {τ : Type} (m : List (String × τ)) (k : String) (v : τ) :
    mapGet (m.map (fun p => if p.1 == k then (k, v) else p)) k
      = if mapHas m k then some v else none := by
  induction m with
  | nil => simp [mapGet, mapHas]
  | cons p m ih =>
    by_cases h : p.1 = k
    · simp [mapGet, mapHas, h]
    · simp only [List.map_cons, mapHas, List.any_cons]
      rw [if_neg (by simpa using h)]
      simp only [mapGet]
      rw [if_neg (by simpa using h), ih]
      have hb : (p.1 == k) = false := by simpa using h
      simp only [hb, Bool.false_or]
      rfl

theorem mapGet_map_update_ne {τ : Type} (m : List (String × τ)) (k : String) (v : τ)
    (k' : String) (h : k' ≠ k) :
    mapGet (m.map (fun p => if p.1 == k then (k, v) else p)) k' = mapGet m k' := by
  induction m with
  | nil => simp
  | cons p m ih =>
    by_cases hp : p.1 = k
    · simp only [List.map_cons]
      rw [if_pos (by simpa using hp)]
      simp only [mapGet]
      rw [if_neg (by simpa using (Ne.symm h)), if_neg (by simp [hp]; exact Ne.symm h), ih]
    · simp only [List.map_cons]
      rw [if_neg (by simpa using hp)]
      simp only [mapGet, ih]

theorem mapGet_mapSet_self {τ : Type} (m : List (String × τ)) (k : String) (v : τ) :
    mapGet (mapSet m k v) k = some v := by
  unfold mapSet
  by_cases h : mapHas m k
  · rw [if_pos h, mapGet_map_update, if_pos h]
  · rw [if_neg h, mapGet_append,
      mapGet_eq_none_of_not_has m k (by simpa using h)]
    simp [mapGet]

theorem mapGet_mapSet_ne {τ : Type} (m : List (String × τ)) (k : String) (v : τ)
    (k' : String) (h : k' ≠ k) : mapGet (mapSet m k v) k' = mapGet m k' := by
  unfold mapSet
  by_cases hh : mapHas m k
  · rw [if_pos hh, mapGet_map_update_ne m k v k' h]
  · rw [if_neg hh, mapGet_append]
    simp only [mapGet]
    rw [if_neg (by simpa using (Ne.symm h))]
    simp

theorem length_mapSet {τ : Type} (m : List (String × τ)) (k : String) (v : τ) :
    (mapSet m k v).length = if mapHas m k then m.length else m.length + 1 := by
  unfold mapSet
  by_cases h : mapHas m k
  · rw [if_pos h, if_pos h, List.length_map]
  · rw [if_neg h, if_neg h]
    simp

theorem length_le_mapSet {τ : Type} (m : List (String × τ)) (k : String) (v : τ) :
    m.length ≤ (mapSet m k v).length := by
  rw [length_mapSet]
  split <;> omega

theorem keys_mapSet {τ : Type} (m : List (String × τ)) (k : String) (v : τ) :
    (mapSet m k v).map Prod.fst
      = if mapHas m k then m.map Prod.fst else m.map Prod.fst ++ [k] := by
  unfold mapSet
  by_cases h : mapHas m k
  · rw [if_pos h, if_pos h, List.map_map]
    refine List.map_congr_left (fun p _ => ?_)
    by_cases hp : p.1 = k
    · simp [Function.comp, hp]
    · rw [Function.comp_apply]
      rw [if_neg (by simpa using hp)]
  · rw [if_neg h, if_neg h]
    simp

theorem mapHas_congr_keys {τ τ' : Type} (m : List (String × τ)) (m' : List (String × τ'))
    (h : m.map Prod.fst = m'.map Prod.fst) (k : String) : mapHas m k = mapHas m' k := by
  rw [Bool.eq_iff_iff, mapHas_iff, mapHas_iff, h]

theorem mapGet_of_mem_nodup {τ : Type} :
    ∀ (m : List (String × τ)), (m.map Prod.fst).Nodup →
      ∀ p ∈ m, mapGet m p.1 = some p.2 := by
  intro m
  induction m with
  | nil => intro _ p hp; cases hp
  | cons q m ih =>
    intro hnd p hp
    rw [List.map_cons, List.nodup_cons] at hnd
    rcases List.mem_cons.mp hp with hp | hp
    · subst hp
      simp [mapGet]
    · have hne : q.1 ≠ p.1 := by
        intro he
        exact hnd.1 (he ▸ List.mem_map_of_mem Prod.fst hp)
      simp only [mapGet]
      rw [if_neg (by simpa using hne)]
      exact ih hnd.2 p hp

theorem mapSet_eq_self {τ : Type} (m : List (String × τ)) (k : String) (v : τ)
    (hnd : (m.map Prod.fst).Nodup) (h : mapGet m k = some v) : mapSet m k v = m := by
  have hhas : mapHas m k = true := by
    rw [← mapGet_isSome_iff, h]
    rfl
  unfold mapSet
  rw [if_pos hhas]
  conv_rhs => rw [← List.map_id m]
  refine List.map_congr_left (fun p hp => ?_)
  by_cases hpk : p.1 = k
  · rw [if_pos (by simpa using hpk)]
    have := mapGet_of_mem_nodup m hnd p hp
    rw [hpk, h] at this
    have hv : v = p.2 := by injection this
    rw [id, ← hpk, hv]
  · rw [if_neg (by simpa using hpk), id]

theorem goodMap_insertAbsent {τ : Type} (key : τ → String) (m : List (String × τ))
    (v : τ) (h : GoodMap key m) :
    GoodMap key (if mapHas m (key v) then m else m ++ [(key v, v)]) := by
  by_cases hh : mapHas m (key v)
  · rwa [if_pos hh]
  · rw [if_neg hh]
    have hnotmem : key v ∉ m.map Prod.fst := by
      intro hx
      rw [← mapHas_iff] at hx
      exact absurd hx (by simpa using hh)
    constructor
    · rw [List.map_append]
      refine List.Nodup.append h.1 (List.nodup_singleton _) ?_
      intro x hx hx'
      have : x = key v := by simpa using hx'
      exact hnotmem (this ▸ hx)
    · intro p hp
      rcases List.mem_append.mp hp with hp' | hp'
      · exact h.2 p hp'
      · have : p = (key v, v) := by simpa using hp'
        rw [this]

theorem goodMap_mapSet {τ : Type} (key : τ → String) (m : List (String × τ))
    (v : τ) (h : GoodMap key m) : GoodMap key (mapSet m (key v) v) := by
  constructor
  · rw [keys_mapSet]
    by_cases hh : mapHas m (key v)
    · rw [if_pos hh]
      exact h.1
    · rw [if_neg hh]
      have hnotmem : key v ∉ m.map Prod.fst := by
        intro hx
        rw [← mapHas_iff] at hx
        exact absurd hx (by simpa using hh)
      refine List.Nodup.append h.1 (List.nodup_singleton _) ?_
      intro x hx hx'
      have : x = key v := by simpa using hx'
      exact hnotmem (this ▸ hx)
  · intro p hp
    unfold mapSet at hp
    split at hp
    · rcases List.mem_map.mp hp with ⟨q, hq, hfq⟩
      by_cases hqk : q.1 = key v
      · rw [if_pos (by simpa using hqk)] at hfq
        rw [← hfq]
      · rw [if_neg (by simpa using hqk)] at hfq
        rw [← hfq]
        exact h.2 q hq
    · rcases List.mem_append.mp hp with hp' | hp'
      · exact h.2 p hp'
      · have : p = (key v, v) := by simpa using hp'
        rw [this]

/-! ## Ordered-merge characterizations: which extraction a key retains -/

theorem getLast?_cons_eq {α : Type} (a : α) (l : List α) :
    (a :: l).getLast? = (l.getLast? <|> some a) := by
  cases l with
  | nil => rfl
  | cons b bs =>
    rw [List.getLast?_cons_cons]
    have : (b :: bs).getLast?.isSome := by
      rw [List.getLast?_isSome]
      exact List.cons_ne_nil b bs
    obtain ⟨v, hv⟩ := Option.isSome_iff_exists.mp this
    rw [hv]
    rfl

/-- After revision 3's `forEach`-`set` merge of a batch, a key holds the
**last** extraction with that id from the batch, and an untouched key keeps
its previous record. -/
theorem mapGet_foldl_set {τ : Type} (key : τ → String) :
    ∀ (l : List τ) (m : List (String × τ)) (k : String),
      mapGet (l.foldl (fun m t => mapSet m (key t) t) m) k
        = ((l.filter (fun t => key t == k)).getLast? <|> mapGet m k) := by
  intro l
  induction l with
  | nil =>
    intro m k
    cases h : mapGet m k <;> simp [h]
  | cons t ts ih =>
    intro m k
    rw [List.foldl_cons, ih]
    by_cases hk : key t = k
    · subst hk
      rw [List.filter_cons_of_pos (by simp), getLast?_cons_eq, mapGet_mapSet_self]
      cases hlast : (ts.filter (fun t' => key t' == key t)).getLast? <;> simp [hlast]
    · rw [List.filter_cons_of_neg (by simpa using hk),
        mapGet_mapSet_ne _ _ _ _ (Ne.symm hk)]

/-- After revision 2's skip-if-seen merge of a batch, a key already present
keeps its previous record, and a fresh key receives the **first** extraction
with that id from the batch. -/
theorem mapGet_foldl_insert {τ : Type} (key : τ → String) :
    ∀ (l : List τ) (m : List (String × τ)) (k : String),
      mapGet (l.foldl (fun m t => if mapHas m (key t) then m else m ++ [(key t, t)]) m) k
        = (mapGet m k <|> (l.filter (fun t => key t == k)).head?) := by
  intro l
  induction l with
  | nil =>
    intro m k
    cases h : mapGet m k <;> simp [h]
  | cons t ts ih =>
    intro m k
    rw [List.foldl_cons, ih]
    by_cases hk : key t = k
    · subst hk
      by_cases hh : mapHas m (key t)
      · rw [if_pos hh]
        obtain ⟨v, hv⟩ := Option.isSome_iff_exists.mp
          (by rw [mapGet_isSome_iff]; exact hh)
        rw [List.filter_cons_of_pos (by simp), hv]
        simp
      · rw [if_neg hh]
        have hnone : mapGet m (key t) = none :=
          mapGet_eq_none_of_not_has m _ (by simpa using hh)
        rw [List.filter_cons_of_pos (by simp), mapGet_append, hnone]
        simp [mapGet]
    · rw [List.filter_cons_of_neg (by simpa using hk)]
      by_cases hh : mapHas m (key t)
      · rw [if_pos hh]
      · rw [if_neg hh, mapGet_append]
        have hnone : mapGet [(key t, t)] k = none := by
          simp only [mapGet]
          rw [if_neg (by simpa using hk)]
        rw [hnone]
        cases h : mapGet m k <;> simp [h]

/-- Re-merging a batch every item of which is already stored unchanged is a
no-op for revision 3's `Map.set` merge. -/
theorem foldl_set_eq_self {τ : Type} (key : τ → String) :
    ∀ (l : List τ) (m : List (String × τ)), (m.map Prod.fst).Nodup →
      (∀ t ∈ l, mapGet m (key t) = some t) →
      l.foldl (fun m t => mapSet m (key t) t) m = m := by
  intro l
  induction l with
  | nil => intro m _ _; rfl
  | cons t ts ih =>
    intro m hnd h
    rw [List.foldl_cons, mapSet_eq_self m (key t) t hnd (h t (List.mem_cons_self t ts))]
    exact ih m hnd (fun t' ht' => h t' (List.mem_cons_of_mem t ht'))

/-- Re-merging a batch every id of which is already seen is a no-op for
revision 2's skip-if-seen merge. -/
theorem foldl_insert_eq_self {τ : Type} (key : τ → String) :
    ∀ (l : List τ) (m : List (String × τ)),
      (∀ t ∈ l, mapHas m (key t) = true) →
      l.foldl (fun m t => if mapHas m (key t) then m else m ++ [(key t, t)]) m = m := by
  intro l
  induction l with
  | nil => intro m _; rfl
  | cons t ts ih =>
    intro m h
    rw [List.foldl_cons, if_pos (h t (List.mem_cons_self t ts))]
    exact ih m (fun t' ht' => h t' (List.mem_cons_of_mem t ht'))

/-! ## Growth lemmas: the dedup count never shrinks, and it stalls exactly
when every extracted id was already seen -/

theorem foldl_length_mono {τ α : Type} (f : List (String × τ) → α → List (String × τ))
    (hf : ∀ m a, m.length ≤ (f m a).length) :
    ∀ (l : List α) (m : List (String × τ)), m.length ≤ (l.foldl f m).length
  | [], _ => le_refl _
  | a :: l, m => le_trans (hf m a) (foldl_length_mono f hf l (f m a))

theorem foldl_set_length_eq_iff {τ : Type} (key : τ → String) :
    ∀ (l : List τ) (m : List (String × τ)),
      ((l.foldl (fun m t => mapSet m (key t) t) m).length = m.length)
        ↔ ∀ t ∈ l, mapHas m (key t) = true := by
  intro l
  induction l with
  | nil => intro m; simp
  | cons t ts ih =>
    intro m
    rw [List.foldl_cons]
    by_cases hh : mapHas m (key t)
    · have hlen : (mapSet m (key t) t).length = m.length := by
        rw [length_mapSet, if_pos hh]
      have hkeys : (mapSet m (key t) t).map Prod.fst = m.map Prod.fst := by
        rw [keys_mapSet, if_pos hh]
      constructor
      · intro h1 t' ht'
        rcases List.mem_cons.mp ht' with rfl | ht'
        · exact hh
        · have := (ih (mapSet m (key t) t)).mp (by rw [hlen]; exact h1) t' ht'
          rwa [mapHas_congr_keys _ _ hkeys] at this
      · intro h2
        rw [← hlen]
        refine (ih _).mpr (fun t' ht' => ?_)
        rw [mapHas_congr_keys _ _ hkeys]
        exact h2 t' (List.mem_cons_of_mem t ht')
    · have hlen : (mapSet m (key t) t).length = m.length + 1 := by
        rw [length_mapSet, if_neg hh]
      have hmono := foldl_length_mono _
        (fun m' t' => length_le_mapSet m' (key t') t') ts (mapSet m (key t) t)
      constructor
      · intro h1
        exact absurd h1 (by omega)
      · intro h2
        exact absurd (h2 t (List.mem_cons_self t ts)) (by simpa using hh)

theorem foldl_insert_length_eq_iff {τ : Type} (key : τ → String) :
    ∀ (l : List τ) (m : List (String × τ)),
      ((l.foldl (fun m t => if mapHas m (key t) then m else m ++ [(key t, t)]) m).length
          = m.length)
        ↔ ∀ t ∈ l, mapHas m (key t) = true := by
  intro l
  induction l with
  | nil => intro m; simp
  | cons t ts ih =>
    intro m
    rw [List.foldl_cons]
    by_cases hh : mapHas m (key t)
    · rw [if_pos hh, ih m]
      constructor
      · intro h1 t' ht'
        rcases List.mem_cons.mp ht' with rfl | ht'
        · exact hh
        · exact h1 t' ht'
      · intro h2 t' ht'
        exact h2 t' (List.mem_cons_of_mem t ht')
    · rw [if_neg hh]
      have hmono := foldl_length_mono
        (fun m' t' => if mapHas m' (key t') then m' else m' ++ [(key t', t')])
        (fun m' t' => by by_cases h : mapHas m' (key t') <;> simp [h])
        ts (m ++ [(key t, t)])
      rw [List.length_append] at hmono
      constructor
      · intro h1
        exact absurd h1 (by simp at hmono ⊢; omega)
      · intro h2
        exact absurd (h2 t (List.mem_cons_self t ts)) (by simpa using hh)

/-! ## The rounds of the revision-2/3 collectors -/

theorem roundV2_eq_foldl (topic : String) (views : Nat → List Elem)
    (m : List (String × TweetV2)) (i : Nat) :
    roundV2 topic views m i
      = ((views i).filterMap (extractV2 topic)).foldl
          (fun m t => if mapHas m t.tweet_id then m else m ++ [(t.tweet_id, t)]) m := by
  unfold roundV2
  generalize views i = els
  induction els generalizing m with
  | nil => rfl
  | cons e es ih =>
    cases h : extractV2 topic e with
    | none => simp [List.filterMap_cons, h, ih]
    | some t => simp [List.filterMap_cons, h, ih]

theorem roundV3_eq_foldl (topic : String) (views : Nat → List Elem)
    (m : List (String × TweetV3)) (i : Nat) :
    roundV3 topic views m i
      = (parseTweets topic (views i)).foldl (fun m t => mapSet m t.tweet_id t) m := rfl

theorem goodMap_roundV2 (topic : String) (views : Nat → List Elem)
    (m : List (String × TweetV2)) (i : Nat) (h : GoodMap TweetV2.tweet_id m) :
    GoodMap TweetV2.tweet_id (roundV2 topic views m i) := by
  unfold roundV2
  refine foldl_preserve (GoodMap TweetV2.tweet_id) ?_ (views i) m h
  intro s e hs
  cases hx : extractV2 topic e with
  | none => simpa [hx] using hs
  | some t => simpa [hx] using goodMap_insertAbsent TweetV2.tweet_id s t hs

theorem goodMap_roundV3 (topic : String) (views : Nat → List Elem)
    (m : List (String × TweetV3)) (i : Nat) (h : GoodMap TweetV3.tweet_id m) :
    GoodMap TweetV3.tweet_id (roundV3 topic views m i) := by
  unfold roundV3
  exact foldl_preserve (GoodMap TweetV3.tweet_id)
    (fun s t hs => goodMap_mapSet TweetV3.tweet_id s t hs) _ m h

theorem roundV2_mono (topic : String) (views : Nat → List Elem)
    (m : List (String × TweetV2)) (i : Nat) :
    m.length ≤ (roundV2 topic views m i).length := by
  unfold roundV2
  refine foldl_length_mono _ ?_ (views i) m
  intro m' e
  cases h : extractV2 topic e with
  | none => simp [h]
  | some t => by_cases hh : mapHas m' t.tweet_id <;> simp [h, hh]

theorem roundV3_mono (topic : String) (views : Nat → List Elem)
    (m : List (String × TweetV3)) (i : Nat) :
    m.length ≤ (roundV3 topic views m i).length := by
  unfold roundV3
  exact foldl_length_mono _ (fun m' t => length_le_mapSet m' t.tweet_id t) _ m

theorem goodMap_loop {τ : Type} (key : τ → String)
    (round : List (String × τ) → Nat → List (String × τ))
    (hpres : ∀ m i, GoodMap key m → GoodMap key (round m i))
    (target maxStale fuel : Nat) :
    GoodMap key (runCollector round target maxStale fuel).seen := by
  unfold runCollector
  refine iterateWhile_preserve (fun s => GoodMap key s.seen)
    (guardC target maxStale) (stepC round)
    (fun s hs => hpres s.seen s.round hs) fuel ⟨[], 0, 0⟩ ?_
  exact ⟨List.nodup_nil, fun p hp => absurd hp (List.not_mem_nil p)⟩

/-! ## The termination measure of the collector loop -/

theorem stepC_measure_lt {τ : Type} (round : List (String × τ) → Nat → List (String × τ))
    (hmono : ∀ m i, m.length ≤ (round m i).length)
    (target maxStale : Nat) (s : CState τ)
    (hg : guardC target maxStale s = true) :
    (target - (stepC round s).seen.length) * maxStale + (maxStale - (stepC round s).stale)
      < (target - s.seen.length) * maxStale + (maxStale - s.stale) := by
  have hg' : s.seen.length < target ∧ s.stale < maxStale := by
    simpa [guardC] using hg
  have hseen : (stepC round s).seen = round s.seen s.round := rfl
  have hmn : s.seen.length ≤ (round s.seen s.round).length := hmono s.seen s.round
  by_cases h : (round s.seen s.round).length = s.seen.length
  · have hst : (stepC round s).stale = s.stale + 1 := by
      simp only [stepC]
      rw [if_pos h]
    rw [hseen, hst, h]
    exact Nat.add_lt_add_left (by omega) _
  · have hst : (stepC round s).stale = 0 := by
      simp only [stepC]
      rw [if_neg h]
    have hlt : s.seen.length < (round s.seen s.round).length :=
      lt_of_le_of_ne hmn (Ne.symm h)
    rw [hseen, hst, Nat.sub_zero]
    have h1 : target - (round s.seen s.round).length + 1 ≤ target - s.seen.length := by
      omega
    calc (target - (round s.seen s.round).length) * maxStale + maxStale
        = ((target - (round s.seen s.round).length) + 1) * maxStale := by
          rw [Nat.succ_mul]
      _ ≤ (target - s.seen.length) * maxStale := Nat.mul_le_mul_right maxStale h1
      _ < (target - s.seen.length) * maxStale + (maxStale - s.stale) :=
          Nat.lt_add_of_pos_right (by omega)

theorem collector_halts {τ : Type} (round : List (String × τ) → Nat → List (String × τ))
    (hmono : ∀ m i, m.length ≤ (round m i).length) (target maxStale : Nat) :
    guardC target maxStale
      (runCollector round target maxStale ((target + 1) * maxStale)) = false := by
  unfold runCollector
  refine iterateWhile_halt _ _
    (fun s => (target - s.seen.length) * maxStale + (maxStale - s.stale))
    (fun s hg => stepC_measure_lt round hmono target maxStale s hg)
    ((target + 1) * maxStale) ⟨[], 0, 0⟩ ?_
  simp [Nat.succ_mul]

/-! ## The staleness signal, round by round -/

theorem stepC_stale_V3 (topic : String) (views : Nat → List Elem) (s : CState TweetV3) :
    (stepC (roundV3 topic views) s).stale
      = if (∀ t ∈ parseTweets topic (views s.round), mapHas s.seen t.tweet_id = true)
        then s.stale + 1 else 0 := by
  show (if (roundV3 topic views s.seen s.round).length = s.seen.length
        then s.stale + 1 else 0) = _
  rw [roundV3_eq_foldl]
  exact if_congr (foldl_set_length_eq_iff TweetV3.tweet_id _ _) rfl rfl

theorem stepC_stale_V2 (topic : String) (views : Nat → List Elem) (s : CState TweetV2) :
    (stepC (roundV2 topic views) s).stale
      = if (∀ t ∈ (views s.round).filterMap (extractV2 topic),
              mapHas s.seen t.tweet_id = true)
        then s.stale + 1 else 0 := by
  show (if (roundV2 topic views s.seen s.round).length = s.seen.length
        then s.stale + 1 else 0) = _
  rw [roundV2_eq_foldl]
  exact if_congr (foldl_insert_length_eq_iff TweetV2.tweet_id _ _) rfl rfl

theorem stepV1_retries (topic : String) (limit : Nat) (views : Nat → List Elem × Nat)
    (s : StateV1) :
    (stepV1 topic limit views s).retries
      = if (views s.round).2 = s.prevHeight then s.retries + 1 else 0 := rfl

/-! ## What the extractors stamp on every record -/

theorem extractV1_fields (topic : String) (e : Elem) (t : TweetV1)
    (h : extractV1 topic e = some t) : t.topic = topic ∧ t.processed = false := by
  unfold extractV1 at h
  split at h
  · split at h
    · cases h
    · injection h with h'
      subst h'
      exact ⟨rfl, rfl⟩
  · cases h

theorem extractV2_fields (topic : String) (e : Elem) (t : TweetV2)
    (h : extractV2 topic e = some t) : t.topic = topic ∧ t.processed = false := by
  simp only [extractV2] at h
  split at h
  · cases h
  · split at h
    · cases h
    · split at h
      · cases h
      · split at h
        · cases h
        · injection h with h'
          subst h'
          exact ⟨rfl, rfl⟩

theorem extractV3_fields (topic : String) (e : Elem) (t : TweetV3)
    (h : extractV3 topic e = some t) : t.topic = topic ∧ t.processed = false := by
  simp only [extractV3] at h
  split at h
  · cases h
  · split at h
    · cases h
    · injection h with h'
      subst h'
      exact ⟨rfl, rfl⟩

theorem parseTweets_fields (topic : String) (els : List Elem) :
    ∀ t ∈ parseTweets topic els, t.topic = topic ∧ t.processed = false := by
  intro t ht
  rcases List.mem_filterMap.mp ht with ⟨e, _, hx⟩
  exact extractV3_fields topic e t hx

theorem foldl_preserve_mem {σ α : Type} (P : σ → Prop) {f : σ → α → σ} :
    ∀ (l : List α), (∀ s a, a ∈ l → P s → P (f s a)) →
      ∀ (s : σ), P s → P (l.foldl f s)
  | [], _, _, hs => hs
  | a :: l, h, s, hs =>
    foldl_preserve_mem P l
      (fun s' a' ha' => h s' a' (List.mem_cons_of_mem a ha'))
      (f s a) (h s a (List.mem_cons_self a l) hs)

theorem mem_mapSet {τ : Type} (m : List (String × τ)) (k : String) (v : τ)
    (p : String × τ) (hp : p ∈ mapSet m k v) : p ∈ m ∨ p = (k, v) := by
  unfold mapSet at hp
  split at hp
  · rcases List.mem_map.mp hp with ⟨q, hq, hfq⟩
    by_cases hqk : q.1 = k
    · right
      rw [← hfq, if_pos (by simpa using hqk)]
    · left
      rw [← hfq, if_neg (by simpa using hqk)]
      exact hq
  · rcases List.mem_append.mp hp with hp' | hp'
    · left; exact hp'
    · right; simpa using hp'

theorem roundV2_records (topic : String) (views : Nat → List Elem)
    (m : List (String × TweetV2)) (i : Nat)
    (h : ∀ p ∈ m, p.2.topic = topic ∧ p.2.processed = false) :
    ∀ p ∈ roundV2 topic views m i, p.2.topic = topic ∧ p.2.processed = false := by
  unfold roundV2
  refine foldl_preserve
    (fun m => ∀ p ∈ m, p.2.topic = topic ∧ p.2.processed = false) ?_ (views i) m h
  intro s e hs
  cases hx : extractV2 topic e with
  | none => simpa [hx] using hs
  | some t =>
    simp only [hx]
    by_cases hh : mapHas s t.tweet_id
    · rw [if_pos hh]
      exact hs
    · rw [if_neg hh]
      intro p hp
      rcases List.mem_append.mp hp with hp' | hp'
      · exact hs p hp'
      · have : p = (t.tweet_id, t) := by simpa using hp'
        rw [this]
        exact extractV2_fields topic e t hx

theorem roundV3_records (topic : String) (views : Nat → List Elem)
    (m : List (String × TweetV3)) (i : Nat)
    (h : ∀ p ∈ m, p.2.topic = topic ∧ p.2.processed = false) :
    ∀ p ∈ roundV3 topic views m i, p.2.topic = topic ∧ p.2.processed = false := by
  unfold roundV3
  refine foldl_preserve_mem
    (fun m => ∀ p ∈ m, p.2.topic = topic ∧ p.2.processed = false)
    (parseTweets topic (views i)) ?_ m h
  intro s t ht hs p hp
  rcases mem_mapSet s t.tweet_id t p hp with hp' | hp'
  · exact hs p hp'
  · rw [hp']
    exact parseTweets_fields topic (views i) t ht

theorem pushV1_records (topic : String) (limit : Nat)
    (st : List TweetV1 × List String) (e : Elem)
    (h : ∀ t ∈ st.1, t.topic = topic ∧ t.processed = false) :
    ∀ t ∈ (pushV1 limit topic st e).1, t.topic = topic ∧ t.processed = false := by
  unfold pushV1
  split
  · exact h
  · cases hx : extractV1 topic e with
    | none => simpa [hx] using h
    | some t =>
      simp only [hx]
      split
      · exact h
      · intro t' ht'
        rcases List.mem_append.mp ht' with ht'' | ht''
        · exact h t' ht''
        · have : t' = t := by simpa using ht''
          rw [this]
          exact extractV1_fields topic e t hx

/-! ## Revision 1's list-and-set merge: append-only, skip-if-seen -/

theorem pushV1_fst_extend (limit : Nat) (topic : String)
    (st : List TweetV1 × List String) (e : Elem) :
    ∃ new, (pushV1 limit topic st e).1 = st.1 ++ new := by
  unfold pushV1
  split
  · exact ⟨[], (List.append_nil _).symm⟩
  · cases hx : extractV1 topic e with
    | none => exact ⟨[], (List.append_nil _).symm⟩
    | some t =>
      simp only [hx]
      split
      · exact ⟨[], (List.append_nil _).symm⟩
      · exact ⟨[t], rfl⟩

theorem foldl_pushV1_extend (limit : Nat) (topic : String) :
    ∀ (els : List Elem) (st : List TweetV1 × List String),
      ∃ new, (els.foldl (pushV1 limit topic) st).1 = st.1 ++ new := by
  intro els
  induction els with
  | nil => intro st; exact ⟨[], (List.append_nil _).symm⟩
  | cons e es ih =>
    intro st
    rw [List.foldl_cons]
    obtain ⟨n1, h1⟩ := pushV1_fst_extend limit topic st e
    obtain ⟨n2, h2⟩ := ih (pushV1 limit topic st e)
    exact ⟨n1 ++ n2, by rw [h2, h1, List.append_assoc]⟩

theorem find?_append_of_some {α : Type} (p : α → Bool) :
    ∀ (l₁ l₂ : List α) (t : α), l₁.find? p = some t → (l₁ ++ l₂).find? p = some t := by
  intro l₁
  induction l₁ with
  | nil => intro l₂ t h; cases h
  | cons a l ih =>
    intro l₂ t h
    cases hp : p a with
    | true =>
      rw [List.find?_cons_of_pos l hp] at h
      rw [List.cons_append, List.find?_cons_of_pos _ hp]
      exact h
    | false =>
      rw [List.find?_cons_of_neg l (by simp [hp])] at h
      rw [List.cons_append, List.find?_cons_of_neg _ (by simp [hp])]
      exact ih l₂ t h

theorem pushV1_eq_self (limit : Nat) (topic : String)
    (st : List TweetV1 × List String) (e : Elem)
    (h : (extractV1 topic e).all (fun t => st.2.contains t.tweet_id) = true) :
    pushV1 limit topic st e = st := by
  unfold pushV1
  split
  · rfl
  · cases hx : extractV1 topic e with
    | none => rfl
    | some t =>
      rw [hx] at h
      have hc : st.2.contains t.tweet_id = true := h
      show (if st.2.contains t.tweet_id then st
            else (st.1 ++ [t], st.2 ++ [t.tweet_id])) = st
      rw [if_pos hc]

theorem foldl_pushV1_eq_self (limit : Nat) (topic : String) :
    ∀ (els : List Elem) (st : List TweetV1 × List String),
      (∀ e ∈ els, (extractV1 topic e).all (fun t => st.2.contains t.tweet_id) = true) →
      els.foldl (pushV1 limit topic) st = st := by
  intro els
  induction els with
  | nil => intro st _; rfl
  | cons e es ih =>
    intro st h
    rw [List.foldl_cons, pushV1_eq_self limit topic st e (h e (List.mem_cons_self e es))]
    exact ih st (fun e' he' => h e' (List.mem_cons_of_mem e he'))

theorem pushV1_goodIds (limit : Nat) (topic : String)
    (st : List TweetV1 × List String) (e : Elem)
    (h : (st.1.map TweetV1.tweet_id).Nodup
      ∧ ∀ t ∈ st.1, st.2.contains t.tweet_id = true) :
    ((pushV1 limit topic st e).1.map TweetV1.tweet_id).Nodup
      ∧ ∀ t ∈ (pushV1 limit topic st e).1,
          (pushV1 limit topic st e).2.contains t.tweet_id = true := by
  by_cases hlim : limit ≤ st.1.length
  · have hred : pushV1 limit topic st e = st := by
      unfold pushV1
      rw [if_pos hlim]
    rw [hred]
    exact h
  · cases hx : extractV1 topic e with
    | none =>
      have hred : pushV1 limit topic st e = st := by
        unfold pushV1
        rw [if_neg hlim, hx]
      rw [hred]
      exact h
    | some t =>
      by_cases hc : st.2.contains t.tweet_id = true
      · have hred : pushV1 limit topic st e = st := by
          unfold pushV1
          rw [if_neg hlim, hx]
          exact if_pos hc
        rw [hred]
        exact h
      · have hred : pushV1 limit topic st e = (st.1 ++ [t], st.2 ++ [t.tweet_id]) := by
          unfold pushV1
          rw [if_neg hlim, hx]
          exact if_neg hc
        rw [hred]
        constructor
        · rw [List.map_append]
          have hnotmem : t.tweet_id ∉ st.1.map TweetV1.tweet_id := by
            intro hmem
            rcases List.mem_map.mp hmem with ⟨t', ht', he⟩
            have hcov := h.2 t' ht'
            rw [he] at hcov
            exact hc hcov
          refine List.Nodup.append h.1 (List.nodup_singleton _) ?_
          intro x hx1 hx2
          have : x = t.tweet_id := by simpa using hx2
          exact hnotmem (this ▸ hx1)
        · intro t' ht'
          rcases List.mem_append.mp ht' with ht'' | ht''
          · have hcov := h.2 t' ht''
            have hmem : t'.tweet_id ∈ st.2 := by simpa using hcov
            simp [hmem]
          · have : t' = t := by simpa using ht''
            subst this
            simp

theorem runV1_ids_nodup (topic : String) (limit : Nat)
    (views : Nat → List Elem × Nat) (fuel : Nat) :
    (((runV1 topic limit views fuel).tweets).map TweetV1.tweet_id).Nodup := by
  refine (iterateWhile_preserve
    (fun s => (s.tweets.map TweetV1.tweet_id).Nodup
      ∧ ∀ t ∈ s.tweets, s.seenIds.contains t.tweet_id = true)
    (guardV1 limit) (stepV1 topic limit views) ?_ fuel ⟨[], [], 0, 0, 0⟩ ?_).1
  · intro s hs
    show (((views s.round).1.foldl (pushV1 limit topic)
        (s.tweets, s.seenIds)).1.map TweetV1.tweet_id).Nodup
      ∧ ∀ t ∈ ((views s.round).1.foldl (pushV1 limit topic) (s.tweets, s.seenIds)).1,
          ((views s.round).1.foldl (pushV1 limit topic)
            (s.tweets, s.seenIds)).2.contains t.tweet_id = true
    exact foldl_preserve
      (fun st => (st.1.map TweetV1.tweet_id).Nodup
        ∧ ∀ t ∈ st.1, st.2.contains t.tweet_id = true)
      (fun st e hst => pushV1_goodIds limit topic st e hst)
      (views s.round).1 (s.tweets, s.seenIds) hs
  · exact ⟨List.nodup_nil, fun t ht => absurd ht (List.not_mem_nil t)⟩

/-! ## The counter parsers -/

theorem takeWhile_all {p : Char → Bool} :
    ∀ (l : List Char), (∀ c ∈ l, p c = true) → l.takeWhile p = l := by
  intro l
  induction l with
  | nil => intro _; rfl
  | cons c cs ih =>
    intro h
    rw [List.takeWhile_cons, if_pos (h c (List.mem_cons_self c cs))]
    rw [ih (fun c' hc' => h c' (List.mem_cons_of_mem c hc'))]

theorem firstRun_runChars (s : List Char) (run : List Char)
    (h : firstRun s = some run) : ∀ c ∈ run, isRunChar c = true := by
  simp only [firstRun] at h
  split at h
  · cases h
  · injection h with h'
    subst h'
    exact fun c hc => List.mem_takeWhile_imp hc

theorem jsParseInt_filter_digits (run : List Char)
    (hm : ∀ c ∈ run, isRunChar c = true) (h : run.any Char.isDigit = true) :
    jsParseInt (run.filter (fun c => !(c == ','))) = some (digitsVal (run.filter Char.isDigit)) := by
  have hfe : run.filter (fun c => !(c == ',')) = run.filter Char.isDigit := by
    refine List.filter_congr (fun c hc => ?_)
    by_cases hcc : c = ','
    · subst hcc
      simp
    · have hd : c.isDigit = true := by
        have := hm c hc
        simp only [isRunChar, Bool.or_eq_true, beq_iff_eq] at this
        rcases this with h' | h'
        · exact h'
        · exact absurd h' hcc
      simp [hcc, hd]
  rw [hfe]
  unfold jsParseInt
  rw [takeWhile_all _ (fun c hc => (List.mem_filter.mp hc).2)]
  obtain ⟨d, hd, hd2⟩ := List.any_eq_true.mp h
  have hne : run.filter Char.isDigit ≠ [] :=
    List.ne_nil_of_mem (List.mem_filter.mpr ⟨hd, hd2⟩)
  rw [if_neg (by simpa [List.isEmpty_iff] using hne)]

theorem parseCount_of_runHasDigit (s : String) (h : runHasDigit s = true) :
    parseCount s = some (specCount s) := by
  unfold parseCount specCount
  cases hr : firstRun s.data with
  | none => rfl
  | some run =>
    unfold runHasDigit at h
    rw [hr] at h
    exact jsParseInt_filter_digits run (firstRun_runChars s.data run hr) h

theorem removeFirst_eq_filter (t : Char) :
    ∀ (l : List Char), l.count t ≤ 1 →
      removeFirst t l = l.filter (fun c => !(c == t)) := by
  intro l
  induction l with
  | nil => intro _; rfl
  | cons c cs ih =>
    intro h
    by_cases hc : c = t
    · subst hc
      rw [List.count_cons_self] at h
      have hnot : c ∉ cs := List.count_eq_zero.mp (by omega)
      have h1 : removeFirst c (c :: cs) = cs := by simp [removeFirst]
      rw [h1, List.filter_cons_of_neg (by simp)]
      refine (List.filter_eq_self.mpr (fun a ha => ?_)).symm
      have hne : a ≠ c := fun he => hnot (he ▸ ha)
      simp [hne]
    · have hcount : cs.count t ≤ 1 := by
        rw [List.count_cons_of_ne (Ne.symm hc)] at h
        exact h
      have h1 : removeFirst t (c :: cs) = c :: removeFirst t cs := by
        simp [removeFirst, hc]
      rw [h1, List.filter_cons_of_pos (by simpa using hc), ih hcount]

theorem getCount_of_runHasDigit (s : String) (h : runHasDigit s = true)
    (h2 : runCommaCount s ≤ 1) : getCount s = some (specCount s) := by
  unfold getCount specCount
  cases hr : firstRun s.data with
  | none => rfl
  | some run =>
    unfold runHasDigit at h
    unfold runCommaCount at h2
    rw [hr] at h h2
    have h' : run.any Char.isDigit = true := h
    have h2' : run.count ',' ≤ 1 := h2
    show jsParseInt (removeFirst ',' run) = some (digitsVal (run.filter Char.isDigit))
    rw [removeFirst_eq_filter ',' run h2']
    exact jsParseInt_filter_digits run (firstRun_runChars s.data run hr) h'

/-! ## The run over all targets -/

theorem runMain_filter (cnt fuel : Nat) (nav : Target → Option (Nat → List Elem)) :
    ∀ (ts : List Target),
      runMain cnt fuel nav ts
        = runMain cnt fuel nav (ts.filter (fun t => (nav t).isSome)) := by
  intro ts
  induction ts with
  | nil => rfl
  | cons t ts ih =>
    cases h : nav t with
    | none => simp [runMain, h, List.filter_cons, ih]
    | some v => simp [runMain, h, List.filter_cons, ih]

theorem runMain_append (cnt fuel : Nat) (nav : Target → Option (Nat → List Elem)) :
    ∀ (ts₁ ts₂ : List Target),
      runMain cnt fuel nav (ts₁ ++ ts₂)
        = runMain cnt fuel nav ts₁ ++ runMain cnt fuel nav ts₂ := by
  intro ts₁ ts₂
  induction ts₁ with
  | nil => rfl
  | cons t ts ih => simp [runMain, ih, List.append_assoc]

/-! ## String-search lemmas for the two tweet-id derivations -/

theorem leadsWith_iff : ∀ (p s : List Char), leadsWith p s = true ↔ ∃ t, s = p ++ t := by
  intro p
  induction p with
  | nil => intro s; simp [leadsWith]
  | cons c cs ih =>
    intro s
    cases s with
    | nil =>
      simp only [leadsWith]
      constructor
      · intro h; cases h
      · rintro ⟨t, ht⟩; cases ht
    | cons d ds =>
      simp only [leadsWith, Bool.and_eq_true, beq_iff_eq, ih ds]
      constructor
      · rintro ⟨rfl, t, rfl⟩
        exact ⟨t, rfl⟩
      · rintro ⟨t, ht⟩
        injection ht with h1 h2
        exact ⟨h1.symm, t, h2⟩

theorem leadsWith_append (p t : List Char) : leadsWith p (p ++ t) = true :=
  (leadsWith_iff p (p ++ t)).mpr ⟨t, rfl⟩

theorem regexStatusId_append (x y : List Char)
    (h : ∀ x', x' <:+ x → x' ≠ [] →
      (leadsWith statusPat (x' ++ y) && digitLeads ((x' ++ y).drop 7)) = false) :
    regexStatusId (x ++ y) = regexStatusId y := by
  induction x with
  | nil => rfl
  | cons c cs ih =>
    have h0 := h (c :: cs) (List.suffix_refl _) (List.cons_ne_nil c cs)
    show regexStatusId (c :: (cs ++ y)) = regexStatusId y
    simp only [regexStatusId]
    rw [if_neg (by rw [show c :: (cs ++ y) = (c :: cs) ++ y from rfl, h0]; simp)]
    exact ih (fun x' hx' hne => h x' (hx'.trans (List.suffix_cons c cs)) hne)

theorem findFrom_append (pat x y : List Char)
    (h : ∀ x', x' <:+ x → x' ≠ [] → leadsWith pat (x' ++ y) = false) :
    findFrom pat (x ++ y) = (findFrom pat y).map (· + x.length) := by
  induction x with
  | nil =>
    cases hf : findFrom pat y <;> simp [hf]
  | cons c cs ih =>
    have h0 := h (c :: cs) (List.suffix_refl _) (List.cons_ne_nil c cs)
    show findFrom pat (c :: (cs ++ y)) = _
    simp only [findFrom]
    rw [if_neg (by rw [show c :: (cs ++ y) = (c :: cs) ++ y from rfl, h0]; simp)]
    rw [ih (fun x' hx' hne => h x' (hx'.trans (List.suffix_cons c cs)) hne)]
    cases hf : findFrom pat y <;> simp [hf]
    omega

theorem findFrom_self (pat t : List Char) : findFrom pat (pat ++ t) = some 0 := by
  cases hp : pat ++ t with
  | nil =>
    have h1 : pat = [] := by
      cases pat with
      | nil => rfl
      | cons c cs => cases hp
    subst h1
    rfl
  | cons c cs =>
    rw [findFrom, if_pos (by rw [← hp]; exact leadsWith_append pat t)]

theorem findFrom_none (pat : List Char) (hp : pat ≠ []) :
    ∀ (l : List Char), (∀ x', x' <:+ l → x' ≠ [] → leadsWith pat x' = false) →
      findFrom pat l = none := by
  intro l
  induction l with
  | nil =>
    intro _
    rw [findFrom, if_neg]
    intro hlw
    obtain ⟨t, ht⟩ := (leadsWith_iff pat []).mp hlw
    exact hp (by cases pat with | nil => rfl | cons c cs => cases ht)
  | cons c cs ih =>
    intro h
    rw [findFrom, if_neg (by rw [h (c :: cs) (List.suffix_refl _) (List.cons_ne_nil c cs)]; simp),
      ih (fun x' hx' hne => h x' (hx'.trans (List.suffix_cons c cs)) hne)]
    rfl

theorem findFrom_some_leadsWith (pat : List Char) :
    ∀ (l : List Char) (j : Nat), findFrom pat l = some j →
      leadsWith pat (l.drop j) = true := by
  intro l
  induction l with
  | nil =>
    intro j h
    rw [findFrom] at h
    split at h
    · injection h with h'
      subst h'
      assumption
    · cases h
  | cons c cs ih =>
    intro j h
    rw [findFrom] at h
    split at h
    · injection h with h'
      subst h'
      assumption
    · cases hf : findFrom pat cs with
      | none => rw [hf] at h; cases h
      | some j' =>
        rw [hf] at h
        injection h with h'
        subst h'
        exact ih j' hf

/-- If `status/` matches starting inside a slash-free region that is
followed by a `/`, the region's remainder is exactly `status`. -/
theorem eq_status_of_leadsWith (x' y' : List Char) (hx : ∀ c ∈ x', c ≠ '/')
    (h : leadsWith statusPat (x' ++ '/' :: y') = true) : x' = "status".data := by
  obtain ⟨t, ht⟩ := (leadsWith_iff _ _).mp h
  by_cases hlen : x'.length ≤ 6
  · have h1 : x' = statusPat.take x'.length := by
      have hc := congrArg (List.take x'.length) ht
      rwa [List.take_left, List.take_append_of_le_length (by simp [statusPat]; omega)] at hc
    have h2 : ('/' : Char) :: y' = statusPat.drop x'.length ++ t := by
      have hc := congrArg (List.drop x'.length) ht
      rwa [List.drop_left, List.drop_append_of_le_length (by simp [statusPat]; omega)] at hc
    have hn : x'.length = 0 ∨ x'.length = 1 ∨ x'.length = 2 ∨ x'.length = 3
        ∨ x'.length = 4 ∨ x'.length = 5 ∨ x'.length = 6 := by omega
    rcases hn with hn | hn | hn | hn | hn | hn | hn
    all_goals rw [hn] at h1 h2
    · exact absurd h2 (by simp [statusPat])
    · exact absurd h2 (by simp [statusPat])
    · exact absurd h2 (by simp [statusPat])
    · exact absurd h2 (by simp [statusPat])
    · exact absurd h2 (by simp [statusPat])
    · exact absurd h2 (by simp [statusPat])
    · rw [h1]; rfl
  · have h1 : statusPat = x'.take 7 := by
      have hc := congrArg (List.take 7) ht
      rw [List.take_append_of_le_length (by omega),
        List.take_append_of_le_length (by simp [statusPat])] at hc
      rw [show statusPat.take 7 = statusPat from rfl] at hc
      exact hc.symm
    have hmem : ('/' : Char) ∈ x'.take 7 := by
      rw [← h1]
      decide
    exact absurd rfl (hx '/' (List.mem_of_mem_take hmem))

/-- No valid regex match of `/status\/(\d+)/` starts inside the
`/⟨handle⟩` part of a canonical href. -/
theorem ok_false_on_A (handle y' : List Char) (hh : ∀ c ∈ handle, c ≠ '/') :
    ∀ x', x' <:+ ('/' :: handle) → x' ≠ [] →
      (leadsWith statusPat (x' ++ ('/' :: (statusPat ++ y')))
        && digitLeads ((x' ++ ('/' :: (statusPat ++ y'))).drop 7)) = false := by
  intro x' hsuf hne
  rcases List.suffix_cons_iff.mp hsuf with rfl | hsuf'
  · rw [show leadsWith statusPat (('/' :: handle) ++ ('/' :: (statusPat ++ y'))) = false from rfl,
      Bool.false_and]
  · by_cases hlw : leadsWith statusPat (x' ++ ('/' :: (statusPat ++ y'))) = true
    · have hx'mem : ∀ c ∈ x', c ≠ '/' := fun c hc => hh c (hsuf'.subset hc)
      have hx'eq : x' = "status".data :=
        eq_status_of_leadsWith x' (statusPat ++ y') hx'mem hlw
      rw [hlw, Bool.true_and, hx'eq]
      rfl
    · cases hb : leadsWith statusPat (x' ++ ('/' :: (statusPat ++ y'))) with
      | true => exact absurd hb hlw
      | false => rw [Bool.false_and]

/-- The first occurrence of `/status/` in a canonical href is the real one:
none starts inside `/⟨handle⟩`. -/
theorem ssp_false_on_A (handle y' : List Char) (hh : ∀ c ∈ handle, c ≠ '/')
    (hne : handle ≠ "status".data) :
    ∀ x', x' <:+ ('/' :: handle) → x' ≠ [] →
      leadsWith ("/status/".data) (x' ++ ('/' :: (statusPat ++ y'))) = false := by
  intro x' hsuf hxne
  rcases List.suffix_cons_iff.mp hsuf with rfl | hsuf'
  · by_cases hlw : leadsWith statusPat (handle ++ ('/' :: (statusPat ++ y'))) = true
    · exact absurd (eq_status_of_leadsWith handle (statusPat ++ y') hh hlw) hne
    · show leadsWith ('/' :: statusPat) ('/' :: (handle ++ ('/' :: (statusPat ++ y')))) = false
      simp only [leadsWith, beq_self_eq_true, Bool.true_and]
      cases hb : leadsWith statusPat (handle ++ ('/' :: (statusPat ++ y'))) with
      | true => exact absurd hb hlw
      | false => rfl
  · cases x' with
    | nil => exact absurd rfl hxne
    | cons c cs =>
      have hc : c ≠ '/' := hh c (hsuf'.subset (List.mem_cons_self c cs))
      show leadsWith ('/' :: statusPat) (c :: (cs ++ ('/' :: (statusPat ++ y')))) = false
      simp only [leadsWith]
      rw [show (('/' : Char) == c) = false from by simpa using Ne.symm hc, Bool.false_and]

/-- `/status/` never occurs inside an all-digit region. -/
theorem findFrom_digits_none (digits : List Char) (hd : ∀ c ∈ digits, c.isDigit = true) :
    findFrom ("/status/".data) digits = none := by
  refine findFrom_none _ (by decide) digits ?_
  intro x' hsuf hne
  cases x' with
  | nil => exact absurd rfl hne
  | cons c cs =>
    have hc : c.isDigit = true := hd c (hsuf.subset (List.mem_cons_self c cs))
    have hcc : (('/' : Char) == c) = false := by
      have : c ≠ '/' := by
        intro he
        rw [he] at hc
        cases hc
      simpa using Ne.symm this
    show leadsWith ('/' :: statusPat) (c :: cs) = false
    simp only [leadsWith]
    rw [hcc, Bool.false_and]

/-- An occurrence of `/status/` in `⟨digits⟩?⟨query⟩` lies strictly after the
digits. -/
theorem findFrom_some_gt (digits q' : List Char) (hd : ∀ c ∈ digits, c.isDigit = true)
    (j : Nat) (h : findFrom ("/status/".data) (digits ++ '?' :: q') = some j) :
    digits.length < j := by
  by_contra hle
  push_neg at hle
  have hlw := findFrom_some_leadsWith _ _ _ h
  rw [List.drop_append_of_le_length hle] at hlw
  by_cases hj : j < digits.length
  · rw [List.drop_eq_getElem_cons hj] at hlw
    have hlw' : (('/' : Char) = digits[j]) ∧
        leadsWith statusPat (digits.drop (j + 1) ++ '?' :: q') = true := by
      simpa [leadsWith, List.cons_append] using hlw
    have hdig : digits[j].isDigit = true := hd _ (List.getElem_mem hj)
    rw [← hlw'.1] at hdig
    cases hdig
  · have hj' : j = digits.length := by omega
    rw [hj', List.drop_length, List.nil_append] at hlw
    simp [leadsWith] at hlw

/-- Taking while not-`?` over digits followed by nothing or a query. -/
theorem takeWhile_notq (digits rest : List Char) (hd : ∀ c ∈ digits, c.isDigit = true) :
    (digits ++ rest).takeWhile (fun c => !(c == '?'))
      = digits ++ rest.takeWhile (fun c => !(c == '?')) := by
  induction digits with
  | nil => rfl
  | cons c cs ih =>
    have hc : c.isDigit = true := hd c (List.mem_cons_self c cs)
    have hcq : ((c : Char) == '?') = false := by
      have : c ≠ '?' := by
        intro he
        rw [he] at hc
        cases hc
      simpa using this
    rw [List.cons_append, List.takeWhile_cons, List.cons_append]
    rw [show (!(c == '?')) = true from by rw [hcq]; rfl]
    rw [if_pos rfl]
    rw [ih (fun c' hc' => hd c' (List.mem_cons_of_mem c hc'))]

/-- Taking while digit over digits followed by nothing or a query. -/
theorem takeWhile_isDigit_append (digits tail : List Char)
    (hd : ∀ c ∈ digits, c.isDigit = true)
    (htail : tail = [] ∨ ∃ q, tail = '?' :: q) :
    (digits ++ tail).takeWhile Char.isDigit = digits := by
  induction digits with
  | nil =>
    rcases htail with rfl | ⟨q, rfl⟩
    · rfl
    · rfl
  | cons c cs ih =>
    rw [List.cons_append, List.takeWhile_cons,
      if_pos (hd c (List.mem_cons_self c cs)),
      ih (fun c' hc' => hd c' (List.mem_cons_of_mem c hc'))]

theorem splitSeg1_eq (pat s : List Char) (i : Nat) (h : findFrom pat s = some i) :
    splitSeg1 pat s
      = (match findFrom pat (s.drop (i + pat.length)) with
         | none => some (s.drop (i + pat.length))
         | some j => some ((s.drop (i + pat.length)).take j)) := by
  unfold splitSeg1
  rw [h]

/-- The regex derivation on a canonical permalink href yields the digits. -/
theorem regex_on_canonical (handle digits tail : List Char)
    (hh : ∀ c ∈ handle, c ≠ '/') (hd : digits ≠ [])
    (hdd : ∀ c ∈ digits, c.isDigit = true)
    (htail : tail = [] ∨ ∃ q, tail = '?' :: q) :
    regexStatusId ('/' :: (handle ++ ("/status/".data ++ (digits ++ tail))))
      = some digits := by
  have hform : '/' :: (handle ++ ("/status/".data ++ (digits ++ tail)))
      = ('/' :: handle) ++ ('/' :: (statusPat ++ (digits ++ tail))) := by
    simp [statusPat]
  rw [hform, regexStatusId_append _ _ (ok_false_on_A handle (digits ++ tail) hh)]
  show regexStatusId ('/' :: (statusPat ++ (digits ++ tail))) = some digits
  simp only [regexStatusId]
  rw [if_neg (by rw [show leadsWith statusPat ('/' :: (statusPat ++ (digits ++ tail)))
        = false from rfl]; simp)]
  rw [if_pos ?hpos]
  case hpos =>
    show (leadsWith statusPat (statusPat ++ (digits ++ tail))
        && digitLeads ((statusPat ++ (digits ++ tail)).drop 7)) = true
    rw [show ((statusPat ++ (digits ++ tail)).drop 7) = digits ++ tail from rfl]
    rw [leadsWith_append, Bool.true_and]
    cases digits with
    | nil => exact absurd rfl hd
    | cons d ds =>
      have : d.isDigit = true := hdd d (List.mem_cons_self d ds)
      simpa [digitLeads] using this
  show some (((statusPat ++ (digits ++ tail)).drop 7).takeWhile Char.isDigit) = some digits
  rw [show ((statusPat ++ (digits ++ tail)).drop 7) = digits ++ tail from rfl]
  rw [takeWhile_isDigit_append digits tail hdd htail]

/-- The split derivation on a canonical permalink href yields the digits. -/
theorem split_on_canonical (handle digits tail : List Char)
    (hh : ∀ c ∈ handle, c ≠ '/') (hne : handle ≠ "status".data) (_hd : digits ≠ [])
    (hdd : ∀ c ∈ digits, c.isDigit = true)
    (htail : tail = [] ∨ ∃ q, tail = '?' :: q) :
    splitStatusId ('/' :: (handle ++ ("/status/".data ++ (digits ++ tail))))
      = some digits := by
  have hform : '/' :: (handle ++ ("/status/".data ++ (digits ++ tail)))
      = ('/' :: handle) ++ ('/' :: (statusPat ++ (digits ++ tail))) := by
    simp [statusPat]
  have hfind : findFrom ("/status/".data)
      ('/' :: (handle ++ ("/status/".data ++ (digits ++ tail))))
      = some (handle.length + 1) := by
    rw [hform, findFrom_append _ _ _ (ssp_false_on_A handle (digits ++ tail) hh hne)]
    rw [show ('/' :: (statusPat ++ (digits ++ tail)))
        = "/status/".data ++ (digits ++ tail) from rfl]
    rw [findFrom_self]
    simp
  have hdrop : ('/' :: (handle ++ ("/status/".data ++ (digits ++ tail)))).drop
      (handle.length + 1 + ("/status/".data).length) = digits ++ tail := by
    rw [hform]
    rw [show ('/' :: handle) ++ ('/' :: (statusPat ++ (digits ++ tail)))
        = (('/' :: handle) ++ "/status/".data) ++ (digits ++ tail) from by
      simp [statusPat]]
    rw [show handle.length + 1 + ("/status/".data).length
        = (('/' :: handle) ++ "/status/".data).length from by
      simp [List.length_append]]
    rw [List.drop_left]
  unfold splitStatusId
  rw [splitSeg1_eq _ _ _ hfind, hdrop]
  rcases htail with rfl | ⟨q, rfl⟩
  · rw [List.append_nil, findFrom_digits_none digits hdd]
    show some (digits.takeWhile (fun c => !(c == '?'))) = some digits
    rw [takeWhile_all digits ?hall]
    case hall =>
      intro c hc
      have hcd := hdd c hc
      have : c ≠ '?' := by
        intro he
        rw [he] at hcd
        cases hcd
      simpa using this
  · cases hf2 : findFrom ("/status/".data) (digits ++ '?' :: q) with
    | none =>
      show some ((digits ++ '?' :: q).takeWhile (fun c => !(c == '?'))) = some digits
      rw [takeWhile_notq digits ('?' :: q) hdd]
      show some (digits ++ []) = some digits
      rw [List.append_nil]
    | some j =>
      have hj := findFrom_some_gt digits q hdd j hf2
      show some (((digits ++ '?' :: q).take j).takeWhile (fun c => !(c == '?'))) = some digits
      rw [List.take_append_eq_append_take, List.take_of_length_le (by omega)]
      obtain ⟨k, hk⟩ : ∃ k, j - digits.length = k + 1 :=
        ⟨j - digits.length - 1, by omega⟩
      rw [hk, List.take_succ_cons, takeWhile_notq digits _ hdd]
      show some (digits ++ []) = some digits
      rw [List.append_nil]

theorem ids_nodup_of_goodMap {τ : Type} (key : τ → String) (m : List (String × τ))
    (h : GoodMap key m) (n : Nat) : (((mapValues m).take n).map key).Nodup := by
  have hbig : ((mapValues m).map key).Nodup := by
    unfold mapValues
    rw [List.map_map]
    have heq : m.map (key ∘ Prod.snd) = m.map Prod.fst :=
      List.map_congr_left (fun p hp => h.2 p hp)
    rw [heq]
    exact h.1
  rw [List.map_take]
  exact hbig.sublist (List.take_sublist n _)

/-! # The claims -/

/-- Claim C1, counterexample: a run of revision 2's `main` over two targets
whose queries both match the same post (tweet id 7) uploads a batch holding
two Records with the same `external_id` — batch-wide uniqueness, as the
claim states it, fails. -/
theorem batch_dedup_cx :
    (runMain 40 10 navDup [⟨"A", "qa"⟩, ⟨"B", "qb"⟩]).map TweetV2.tweet_id = ["7", "7"]
    ∧ ¬ ((runMain 40 10 navDup [⟨"A", "qa"⟩, ⟨"B", "qb"⟩]).map TweetV2.tweet_id).Nodup := by
  constructor <;> decide

/-- Claim C1 (amended): within the Records collected for a single target no
two share `external_id` — for revision 2's `collect` and revision 3's
`scrollAndCollect` alike; across targets the concatenated batch may repeat
an id (see the counterexample), and only the upsert's `onConflict` resolves
that. -/
theorem per_target_dedup :
    (∀ (topic : String) (target : Nat) (views : Nat → List Elem) (fuel : Nat),
      ((collectV2 topic target views fuel).map TweetV2.tweet_id).Nodup)
    ∧ (∀ (topic : String) (target : Nat) (views : Nat → List Elem) (fuel : Nat),
      ((scrollAndCollect topic target views fuel).map TweetV3.tweet_id).Nodup) := by
  constructor
  · intro topic target views fuel
    have hgm : GoodMap TweetV2.tweet_id
        (runCollector (roundV2 topic views) target 4 fuel).seen :=
      goodMap_loop _ _ (fun m i h => goodMap_roundV2 topic views m i h) target 4 fuel
    exact ids_nodup_of_goodMap TweetV2.tweet_id _ hgm target
  · intro topic target views fuel
    have hgm : GoodMap TweetV3.tweet_id
        (runCollector (roundV3 topic views) target 4 fuel).seen :=
      goodMap_loop _ _ (fun m i h => goodMap_roundV3 topic views m i h) target 4 fuel
    exact ids_nodup_of_goodMap TweetV3.tweet_id _ hgm target

/-- Claim C2, counterexample: revision 2's `collect` sees tweet id 1 first
with text `old`, then with text `new`; the final output keeps the **first**
extraction's text — last-write-wins, as the claim states it, fails on
`collect`. -/
theorem lww_cx :
    collectV2 "T" 1 vsDupText 10
      = [{ tweet_id := "1", topic := "T", text := "old", processed := false }]
    ∧ (collectV2 "T" 1 vsDupText 10).map TweetV2.text ≠ ["new"] := by
  constructor <;> decide

/-- Claim C2 (amended): in revision 3's `scrollAndCollect` the later
extraction's fields win (a key holds the last extraction of the round,
overriding the previous rounds' record) and re-merging unchanged records is
a no-op; in revision 1's and revision 2's `collect` the **first**
extraction of an id is retained — seen ids are skipped, within and across
rounds — and re-merging already-seen ids is likewise a no-op.  Conjuncts
5–7 settle revision 1: a round only appends, so the first record found for
an id persists unchanged through any further rounds; the output never holds
two records with the same id (the within-round skip); and a round whose
every extraction carries an already-seen id leaves the state untouched. -/
theorem merge_semantics :
    (∀ (topic : String) (views : Nat → List Elem) (seen : List (String × TweetV3))
        (i : Nat) (k : String),
        mapGet (roundV3 topic views seen i) k
          = (((parseTweets topic (views i)).filter (fun t => t.tweet_id == k)).getLast?
              <|> mapGet seen k))
    ∧ (∀ (topic : String) (views : Nat → List Elem) (seen : List (String × TweetV3))
        (i : Nat),
        (seen.map Prod.fst).Nodup →
        (∀ t ∈ parseTweets topic (views i), mapGet seen t.tweet_id = some t) →
        roundV3 topic views seen i = seen)
    ∧ (∀ (topic : String) (views : Nat → List Elem) (seen : List (String × TweetV2))
        (i : Nat) (k : String),
        mapGet (roundV2 topic views seen i) k
          = (mapGet seen k
              <|> (((views i).filterMap (extractV2 topic)).filter
                    (fun t => t.tweet_id == k)).head?))
    ∧ (∀ (topic : String) (views : Nat → List Elem) (seen : List (String × TweetV2))
        (i : Nat),
        (∀ t ∈ (views i).filterMap (extractV2 topic), mapHas seen t.tweet_id = true) →
        roundV2 topic views seen i = seen)
    ∧ (∀ (topic : String) (limit : Nat) (st : List TweetV1 × List String)
        (els : List Elem) (k : String) (t : TweetV1),
        st.1.find? (fun t' => t'.tweet_id == k) = some t →
        ((els.foldl (pushV1 limit topic) st).1).find? (fun t' => t'.tweet_id == k)
          = some t)
    ∧ (∀ (topic : String) (limit fuel : Nat) (views : Nat → List Elem × Nat),
        (((runV1 topic limit views fuel).tweets).map TweetV1.tweet_id).Nodup)
    ∧ (∀ (topic : String) (limit : Nat) (st : List TweetV1 × List String)
        (els : List Elem),
        (∀ e ∈ els, (extractV1 topic e).all (fun t => st.2.contains t.tweet_id) = true) →
        els.foldl (pushV1 limit topic) st = st) := by
  refine ⟨?_, ?_, ?_, ?_, ?_, ?_, ?_⟩
  · intro topic views seen i k
    rw [roundV3_eq_foldl]
    exact mapGet_foldl_set TweetV3.tweet_id _ seen k
  · intro topic views seen i hnd h
    rw [roundV3_eq_foldl]
    exact foldl_set_eq_self TweetV3.tweet_id _ seen hnd h
  · intro topic views seen i k
    rw [roundV2_eq_foldl]
    exact mapGet_foldl_insert TweetV2.tweet_id _ seen k
  · intro topic views seen i h
    rw [roundV2_eq_foldl]
    exact foldl_insert_eq_self TweetV2.tweet_id _ seen h
  · intro topic limit st els k t h
    obtain ⟨new, hnew⟩ := foldl_pushV1_extend limit topic els st
    rw [hnew]
    exact find?_append_of_some _ st.1 new t h
  · intro topic limit fuel views
    exact runV1_ids_nodup topic limit views fuel
  · intro topic limit st els h
    exact foldl_pushV1_eq_self limit topic els st h

/-- Witness for `merge_semantics` at concrete inputs: merging the batch
rendered by `mkEl "7"` into an empty map stores `tw7`; re-merging it into a
map already holding `tw7` unchanged is a no-op; revision 1's record `tw1`
for the already-found id 7 persists through a further round over the same
element, and that round is a no-op on the whole state. -/
theorem merge_semantics_witness :
    mapGet (roundV3 "T" (fun _ => [mkEl "7"]) [] 0) "7" = some tw7
    ∧ roundV3 "T" (fun _ => [mkEl "7"]) [("7", tw7)] 0 = [("7", tw7)]
    ∧ (([mkEl "7"].foldl (pushV1 40 "T") ([tw1], ["7"])).1).find?
        (fun t' => t'.tweet_id == "7") = some tw1
    ∧ [mkEl "7"].foldl (pushV1 40 "T") ([tw1], ["7"]) = ([tw1], ["7"]) :=
  ⟨(merge_semantics.1 "T" (fun _ => [mkEl "7"]) [] 0 "7").trans (by decide),
   merge_semantics.2.1 "T" (fun _ => [mkEl "7"]) [("7", tw7)] 0 (by decide) (by decide),
   merge_semantics.2.2.2.2.1 "T" 40 ([tw1], ["7"]) [mkEl "7"] "7" tw1 (by decide),
   merge_semantics.2.2.2.2.2.2 "T" 40 ([tw1], ["7"]) [mkEl "7"] (by decide)⟩

/-- Claim C3: for every stream of rendered views the collector loop of
revisions 2/3 (and `part_003`, which is the same loop with `maxStale = 5`)
halts — its guard is false within `(target + 1) * maxStale` rounds — and
when the deduplicated count would reach `target_count` after `n` unguarded
rounds, the loop executes at most `maxStale + n` rounds.  The first two
conjuncts instantiate the growth hypothesis for the two concrete rounds. -/
theorem collector_bounded :
    (∀ (topic : String) (views : Nat → List Elem) (m : List (String × TweetV2)) (i : Nat),
        m.length ≤ (roundV2 topic views m i).length)
    ∧ (∀ (topic : String) (views : Nat → List Elem) (m : List (String × TweetV3)) (i : Nat),
        m.length ≤ (roundV3 topic views m i).length)
    ∧ (∀ (τ : Type) (round : List (String × τ) → Nat → List (String × τ)),
        (∀ m i, m.length ≤ (round m i).length) →
        ∀ (target maxStale : Nat),
          guardC target maxStale
            (runCollector round target maxStale ((target + 1) * maxStale)) = false
          ∧ ∀ n : Nat,
              target ≤ ((stepC round)^[n] (⟨[], 0, 0⟩ : CState τ)).seen.length →
              (runCollector round target maxStale ((target + 1) * maxStale)).round
                ≤ maxStale + n) := by
  refine ⟨roundV2_mono, roundV3_mono, ?_⟩
  intro τ round hmono target maxStale
  refine ⟨collector_halts round hmono target maxStale, ?_⟩
  intro n hn
  have hg : guardC target maxStale ((stepC round)^[n] (⟨[], 0, 0⟩ : CState τ)) = false := by
    have hnotlt : ¬ (((stepC round)^[n] (⟨[], 0, 0⟩ : CState τ)).seen.length < target) := by
      omega
    simp [guardC, hnotlt]
  have hle := iterateWhile_round_le (guardC target maxStale) (stepC round) CState.round
    (fun s => rfl) n ((target + 1) * maxStale) ⟨[], 0, 0⟩ hg
  have h2 : (runCollector round target maxStale ((target + 1) * maxStale)).round
      ≤ 0 + n := hle
  omega

/-- Witness for `collector_bounded` on a concrete instance: with
`target = 5`, `maxStale = 1` and a source that never renders anything, the
loop's guard is false after the bound's `(5 + 1) * 1` rounds. -/
theorem collector_bounded_witness :
    guardC 5 1 (runCollector (roundV3 "T" (fun _ => [])) 5 1 6) = false :=
  (collector_bounded.2.2 TweetV3 (roundV3 "T" (fun _ => []))
    (fun m i => roundV3_mono "T" (fun _ => []) m i) 5 1).1

/-- Claim C4, counterexample: in revision 1's `collect` the staleness signal
is **not** the record count.  A round that extracts nothing while
`scrollHeight` grows leaves `retries` at 0 (the claim demands an increment
to 1), and a round that extracts one new record while `scrollHeight` is
unchanged sets `retries` to 1 (the claim demands a reset to 0). -/
theorem staleness_cx :
    ((runV1 "T" 10 vsHeightGrows 1).tweets.length = 0
      ∧ (runV1 "T" 10 vsHeightGrows 1).retries = 0)
    ∧ ((runV1 "T" 10 vsHeightStalls 1).tweets.length = 1
      ∧ (runV1 "T" 10 vsHeightStalls 1).retries = 1) := by
  refine ⟨⟨?_, ?_⟩, ⟨?_, ?_⟩⟩ <;> decide

/-- Claim C4 (amended): the revision-2/3 collectors compute the staleness
signal from the deduplicated record count exactly as the claim states —
the counter increments precisely when every extracted id was already seen
and resets to 0 otherwise — while revision 1's `collect` derives its
`retries` signal from the rendered-page `scrollHeight` alone. -/
theorem staleness_signal :
    (∀ (topic : String) (views : Nat → List Elem) (s : CState TweetV3),
        (stepC (roundV3 topic views) s).stale
          = if (∀ t ∈ parseTweets topic (views s.round), mapHas s.seen t.tweet_id = true)
            then s.stale + 1 else 0)
    ∧ (∀ (topic : String) (views : Nat → List Elem) (s : CState TweetV2),
        (stepC (roundV2 topic views) s).stale
          = if (∀ t ∈ (views s.round).filterMap (extractV2 topic),
                  mapHas s.seen t.tweet_id = true)
            then s.stale + 1 else 0)
    ∧ (∀ (topic : String) (limit : Nat) (views : Nat → List Elem × Nat) (s : StateV1),
        (stepV1 topic limit views s).retries
          = if (views s.round).2 = s.prevHeight then s.retries + 1 else 0) :=
  ⟨stepC_stale_V3, stepC_stale_V2, stepV1_retries⟩

/-- Claim C5: the spec's §8 scenario.  Target `Test` with `target_count =
50`, `maxStale = 4`, against a source rendering 5 unique items over the
first 3 rounds and the same 5 thereafter: the loop halts after exactly 7
rounds (3 growth + 4 stale), in the partial-done outcome, and
`scrollAndCollect` returns exactly the 5 records. -/
theorem scenario_partial_done :
    (runCollector (roundV3 "Test" vsC5) 50 4 204).round = 7
    ∧ (runCollector (roundV3 "Test" vsC5) 50 4 204).stale = 4
    ∧ guardC 50 4 (runCollector (roundV3 "Test" vsC5) 50 4 204) = false
    ∧ outcomeOf 50 (runCollector (roundV3 "Test" vsC5) 50 4 204) = Outcome.partialDone
    ∧ (scrollAndCollect "Test" 50 vsC5 204).length = 5
    ∧ (scrollAndCollect "Test" 50 vsC5 204).map TweetV3.tweet_id
        = ["1", "2", "3", "4", "5"] := by
  refine ⟨?_, ?_, ?_, ?_, ?_, ?_⟩ <;> decide

/-- Claim C6, counterexample: `part_003`'s `getCount` strips only the
**first** grouping separator (`raw.replace(",", "")` with a string pattern),
so `parseInt` stops at the second comma: `"1,234,567 weergaven"` parses to
1234, not to the separator-stripped 1234567 the claim states. -/
theorem counter_parse_cx :
    getCount "1,234,567 weergaven" = some 1234
    ∧ specCount "1,234,567 weergaven" = 1234567
    ∧ getCount "1,234,567 weergaven" ≠ some (specCount "1,234,567 weergaven") := by
  refine ⟨?_, ?_, ?_⟩ <;> decide

/-- Claim C6 (amended): when the label's first digit-or-comma run contains a
digit, `parseCount` returns exactly the separator-stripped value of that
run; `getCount` agrees when the run holds at most one separator (it removes
only the first); a label with no run parses to 0; in particular `"1,234"`
and `"1,234 likes"` parse to 1234 and `""` parses to 0. -/
theorem counter_parsing :
    (∀ s : String, runHasDigit s = true → parseCount s = some (specCount s))
    ∧ (∀ s : String, runHasDigit s = true → runCommaCount s ≤ 1 →
        getCount s = some (specCount s))
    ∧ parseCount "1,234" = some 1234 ∧ parseCount "1,234 likes" = some 1234
    ∧ parseCount "" = some 0 ∧ getCount "1,234 likes" = some 1234
    ∧ getCount "" = some 0 := by
  refine ⟨parseCount_of_runHasDigit, getCount_of_runHasDigit, ?_, ?_, ?_, ?_, ?_⟩ <;> decide

/-- Witness for `counter_parsing` at a concrete label. -/
theorem counter_parsing_witness :
    parseCount "12,345 weergaven" = some (specCount "12,345 weergaven")
    ∧ getCount "12,345 weergaven" = some (specCount "12,345 weergaven") :=
  ⟨counter_parsing.1 "12,345 weergaven" (by decide),
   counter_parsing.2.1 "12,345 weergaven" (by decide) (by decide)⟩

/-- Claim C7: failure isolation.  A run over any target list equals the run
over only the targets whose navigation succeeds — a target whose
navigation or selector wait throws contributes nothing — and splicing a
throwing target into any position leaves the preceding and following
targets' contributions untouched. -/
theorem failure_isolation :
    (∀ (cnt fuel : Nat) (nav : Target → Option (Nat → List Elem)) (ts : List Target),
        runMain cnt fuel nav ts
          = runMain cnt fuel nav (ts.filter (fun t => (nav t).isSome)))
    ∧ (∀ (cnt fuel : Nat) (nav : Target → Option (Nat → List Elem))
        (pre post : List Target) (bad : Target), nav bad = none →
        runMain cnt fuel nav (pre ++ bad :: post)
          = runMain cnt fuel nav pre ++ runMain cnt fuel nav post) := by
  constructor
  · exact runMain_filter
  · intro cnt fuel nav pre post bad h
    rw [runMain_append]
    congr 1
    simp [runMain, h]

/-- Witness for `failure_isolation`: the target labelled `Bad` throws; the
surrounding `Good` targets' records are exactly what the run returns. -/
theorem failure_isolation_witness :
    runMain 40 10 navBad [⟨"Good", "g"⟩, ⟨"Bad", "b"⟩, ⟨"Good2", "h"⟩]
      = runMain 40 10 navBad [⟨"Good", "g"⟩] ++ runMain 40 10 navBad [⟨"Good2", "h"⟩] :=
  failure_isolation.2 40 10 navBad [⟨"Good", "g"⟩] [⟨"Good2", "h"⟩] ⟨"Bad", "b"⟩
    (by simp [navBad])

/-- Claim C8: evaluation at the failing input.  On the label `","` the
first `[\d,]+` run is `","`; stripping the comma leaves `""`, and
`parseInt("")` is `NaN` (modelled `none`) — not the non-negative integer
the claim (and §4.4's default-to-0 rule) requires. -/
theorem parseCount_comma_nan : parseCount "," = none ∧ getCount "," = none := by
  constructor <;> decide

/-- Claim C9, counterexample: on the href `/alice/status/123/photo/1` the
regex capture is `123` while the split derivation keeps `123/photo/1` — the
two id derivations are not equivalent on all hrefs. -/
theorem status_id_cx :
    regexStatusId "/alice/status/123/photo/1".data = some "123".data
    ∧ splitStatusId "/alice/status/123/photo/1".data = some "123/photo/1".data
    ∧ regexStatusId "/alice/status/123/photo/1".data
        ≠ splitStatusId "/alice/status/123/photo/1".data := by
  refine ⟨?_, ?_, ?_⟩ <;> decide

/-- Claim C9 (amended): on every href of the canonical permalink form
`/⟨handle⟩/status/⟨digits⟩` or `/⟨handle⟩/status/⟨digits⟩?⟨query⟩` — with a
slash-free handle other than the literal `status` and a nonempty all-digit
id — the regex capture of revision 1 and the split derivation of revisions
2/3 agree, both yielding the digits. -/
theorem status_id_agreement :
    ∀ (handle digits tail : List Char),
      (∀ c ∈ handle, c ≠ '/') → handle ≠ "status".data →
      digits ≠ [] → (∀ c ∈ digits, c.isDigit = true) →
      (tail = [] ∨ ∃ q, tail = '?' :: q) →
      regexStatusId ('/' :: (handle ++ ("/status/".data ++ (digits ++ tail))))
        = some digits
      ∧ splitStatusId ('/' :: (handle ++ ("/status/".data ++ (digits ++ tail))))
        = some digits :=
  fun handle digits tail hh hne hd hdd htail =>
    ⟨regex_on_canonical handle digits tail hh hd hdd htail,
     split_on_canonical handle digits tail hh hne hd hdd htail⟩

/-- Witness for `status_id_agreement` at the href `/alice/status/123?ref=x`. -/
theorem status_id_agreement_witness :
    regexStatusId ('/' :: ("alice".data ++ ("/status/".data
        ++ ("123".data ++ ('?' :: "ref=x".data))))) = some "123".data
    ∧ splitStatusId ('/' :: ("alice".data ++ ("/status/".data
        ++ ("123".data ++ ('?' :: "ref=x".data))))) = some "123".data :=
  status_id_agreement "alice".data "123".data ('?' :: "ref=x".data)
    (by decide) (by decide) (by decide) (by decide) (Or.inr ⟨"ref=x".data, rfl⟩)

/-- Claim C10: every Record any of the three collection operations emits
carries the processed target's label as its `topic` and has `processed =
false` — for revision 3's `parseTweets`, revision 2's `collect`, revision
3's `scrollAndCollect` and revision 1's `collect` alike. -/
theorem records_stamped :
    (∀ (topic : String) (els : List Elem) (t : TweetV3), t ∈ parseTweets topic els →
        t.topic = topic ∧ t.processed = false)
    ∧ (∀ (topic : String) (target fuel : Nat) (views : Nat → List Elem) (t : TweetV2),
        t ∈ collectV2 topic target views fuel → t.topic = topic ∧ t.processed = false)
    ∧ (∀ (topic : String) (target fuel : Nat) (views : Nat → List Elem) (t : TweetV3),
        t ∈ scrollAndCollect topic target views fuel →
          t.topic = topic ∧ t.processed = false)
    ∧ (∀ (topic : String) (limit fuel : Nat) (views : Nat → List Elem × Nat) (t : TweetV1),
        t ∈ (runV1 topic limit views fuel).tweets →
          t.topic = topic ∧ t.processed = false) := by
  refine ⟨parseTweets_fields, ?_, ?_, ?_⟩
  · intro topic target fuel views t ht
    have hinv : ∀ p ∈ (runCollector (roundV2 topic views) target 4 fuel).seen,
        p.2.topic = topic ∧ p.2.processed = false := by
      refine iterateWhile_preserve
        (fun s => ∀ p ∈ s.seen, p.2.topic = topic ∧ p.2.processed = false)
        (guardC target 4) (stepC (roundV2 topic views))
        (fun s hs => roundV2_records topic views s.seen s.round hs) fuel ⟨[], 0, 0⟩ ?_
      intro p hp
      cases hp
    have ht' := List.mem_of_mem_take ht
    rcases List.mem_map.mp ht' with ⟨p, hp, rfl⟩
    exact hinv p hp
  · intro topic target fuel views t ht
    have hinv : ∀ p ∈ (runCollector (roundV3 topic views) target 4 fuel).seen,
        p.2.topic = topic ∧ p.2.processed = false := by
      refine iterateWhile_preserve
        (fun s => ∀ p ∈ s.seen, p.2.topic = topic ∧ p.2.processed = false)
        (guardC target 4) (stepC (roundV3 topic views))
        (fun s hs => roundV3_records topic views s.seen s.round hs) fuel ⟨[], 0, 0⟩ ?_
      intro p hp
      cases hp
    have ht' := List.mem_of_mem_take ht
    rcases List.mem_map.mp ht' with ⟨p, hp, rfl⟩
    exact hinv p hp
  · intro topic limit fuel views t ht
    have hinv : ∀ t' ∈ (runV1 topic limit views fuel).tweets,
        t'.topic = topic ∧ t'.processed = false := by
      refine iterateWhile_preserve
        (fun s => ∀ t' ∈ s.tweets, t'.topic = topic ∧ t'.processed = false)
        (guardV1 limit) (stepV1 topic limit views) ?_ fuel ⟨[], [], 0, 0, 0⟩ ?_
      · intro s hs
        show ∀ t' ∈ ((views s.round).1.foldl (pushV1 limit topic)
            (s.tweets, s.seenIds)).1, t'.topic = topic ∧ t'.processed = false
        exact foldl_preserve
          (fun st => ∀ t' ∈ st.1, t'.topic = topic ∧ t'.processed = false)
          (fun st e hst => pushV1_records topic limit st e hst)
          (views s.round).1 (s.tweets, s.seenIds) hs
      · intro t' ht'
        cases ht'
    exact hinv t ht

/-- Witness for `records_stamped`: the record parsed from `mkEl "7"` under
topic `T` carries that topic and `processed = false`. -/
theorem records_stamped_witness : tw7.topic = "T" ∧ tw7.processed = false :=
  records_stamped.1 "T" [mkEl "7"] tw7 (by decide)

end XNL
